import Mathlib

/-!
Shallow embedding of `inst/include/LatentOrderLikelihood.h` from the `lolog`
repository (latent order logistic graph models), together with proofs about
the sequential dyad-processing engine: the transactional dyad step, the
replay sampler (`modelFrameGivenOrder` / `modelFrameGivenEdgeOrder`), the
generative sampler (`generateNetworkWithOrder` / `generateNetworkWithEdgeOrder`),
the change-statistics-only mode (`calcChangeStats`), the partial
Fisher-Yates `shuffle`, the rank annotation, and the configuration checks.

Numeric conventions: C++ `double` arithmetic is embedded as exact `ℚ`
arithmetic; `exp` is an uninterpreted parameter `expQ : ℚ → ℚ`.  The
process-wide uniform random stream is embedded as oracle families:
`u : ℕ → ℚ` for the `Rf_runif(0,1)` draws (indexed by a running counter)
and `sd : ℕ → ℕ → ℕ` for the already-floored `floor(Rf_runif(k, offset))`
index draws consumed by `shuffle` (step, position).
-/

namespace Lolog

/-- Modelled from the spec: the external Network collaborator (spec section 6) is
not part of `src/`; per the spec it is a mutable graph with a fixed vertex
count `n`, a directedness flag, edge presence query, edge toggle and reset to
empty.  Edges are kept as a list of ordered pairs; an undirected edge is
stored in one orientation and queried in both. -/
structure Network where
  n : ℕ
  directed : Bool
  edges : List (ℕ × ℕ)
deriving DecidableEq, Repr

/-- Modelled from the spec: `hasEdge(u,v)`; for an undirected network the
query ignores orientation. -/
def Network.hasEdge (g : Network) (u v : ℕ) : Bool :=
  if g.directed then g.edges.contains (u, v)
  else g.edges.contains (u, v) || g.edges.contains (v, u)

/-- Modelled from the spec: `toggle(u,v)` flips edge presence at the dyad. -/
def Network.toggle (g : Network) (u v : ℕ) : Network :=
  if g.hasEdge u v then
    { g with edges :=
        g.edges.filter (fun e => !(e = (u, v) : Bool) && (g.directed || !(e = (v, u) : Bool))) }
  else
    { g with edges := (u, v) :: g.edges }

/-- Modelled from the spec: `emptyGraph()` resets all edges (used by
`removeEdges` on the no-tie model). -/
def Network.emptyGraph (g : Network) : Network :=
  { g with edges := [] }

/-- Modelled from the spec: the external Model collaborator holds a network
plus internal statistic caches supporting a tentative `dyadUpdate` /
`rollback` discipline.  The caches are represented by `pending`: `some h`
means a tentative update to the hypothetical network `h` is in flight, so
statistics and log-likelihood reflect `h`; `none` means the model is
committed and they reflect `net`.  The sufficient-statistic map and the
log-likelihood are uninterpreted parameters `statF` / `llF` over network
states (the spec keeps the statistic definitions out of scope); the
`order` / `egoIndex` arguments of the source `dyadUpdate`, which only steer
those external caches, are therefore dropped here and treated separately
where a claim is about which ego index the engine passes. -/
structure Model where
  net : Network
  pending : Option Network
deriving DecidableEq, Repr

/-- The network state the model caches currently describe. -/
def Model.curNet (m : Model) : Network :=
  m.pending.getD m.net

/-- The model statistic vector, as read by `statistics()`. -/
def modelStats (statF : Network → List ℚ) (m : Model) : List ℚ :=
  statF m.curNet

/-- The model log-likelihood, as read by `logLik()`. -/
def modelLogLik (llF : Network → ℚ) (m : Model) : ℚ :=
  llF m.curNet

/-- Modelled from the spec: `dyadUpdate(vertex, alter, ...)` tentatively
updates the caches as if the dyad were toggled, without toggling the edge. -/
def dyadUpdate (v a : ℕ) (m : Model) : Model :=
  { m with pending := some (m.net.toggle v a) }

/-- Modelled from the spec: `rollback()` undoes exactly the last tentative
update. -/
def rollback (m : Model) : Model :=
  { m with pending := none }

/-- Committing a tentative update: the callers resolve a tentative
`dyadUpdate` by calling `network()->toggle(vertex, alter)`, after which the
caches describe the new committed network. -/
def commitToggle (v a : ℕ) (m : Model) : Model :=
  { net := m.net.toggle v a, pending := none }

/-! ### Vector arithmetic on statistic vectors -/

/-- Componentwise sum of statistic vectors. -/
def vecAdd (xs ys : List ℚ) : List ℚ := List.zipWith (· + ·) xs ys

/-- Componentwise difference of statistic vectors. -/
def vecSub (xs ys : List ℚ) : List ℚ := List.zipWith (· - ·) xs ys

/-- Scaling of a statistic vector. -/
def vecScale (c : ℚ) (xs : List ℚ) : List ℚ := xs.map (fun x => c * x)

theorem vecAdd_length (xs ys : List ℚ) :
    (vecAdd xs ys).length = min xs.length ys.length := by
  simp [vecAdd]

theorem vecSub_length (xs ys : List ℚ) :
    (vecSub xs ys).length = min xs.length ys.length := by
  simp [vecSub]

theorem vecScale_length (c : ℚ) (xs : List ℚ) :
    (vecScale c xs).length = xs.length := by
  simp [vecScale]

/-- Adding back a componentwise difference recovers the minuend. -/
theorem vecAdd_vecSub_cancel :
    ∀ (xs ys : List ℚ), xs.length = ys.length → vecAdd xs (vecSub ys xs) = ys
  | [], [], _ => rfl
  | x :: xs, y :: ys, h => by
    show (x + (y - x)) :: vecAdd xs (vecSub ys xs) = y :: ys
    have hx : x + (y - x) = y := by ring
    rw [hx, vecAdd_vecSub_cancel xs ys (by simpa using h)]

/-- Adding the zero vector of matching length is the identity. -/
theorem vecAdd_replicate_zero :
    ∀ (xs : List ℚ), vecAdd xs (List.replicate xs.length 0) = xs
  | [] => rfl
  | x :: xs => by
    show (x + 0) :: vecAdd xs (List.replicate xs.length 0) = x :: xs
    rw [add_zero, vecAdd_replicate_zero xs]

/-- Componentwise addition is associative. -/
theorem vecAdd_assoc :
    ∀ (xs ys zs : List ℚ), vecAdd (vecAdd xs ys) zs = vecAdd xs (vecAdd ys zs)
  | [], _, _ => rfl
  | _ :: _, [], _ => rfl
  | _ :: _, _ :: _, [] => rfl
  | x :: xs, y :: ys, z :: zs => by
    show (x + y + z) :: vecAdd (vecAdd xs ys) zs = (x + (y + z)) :: vecAdd xs (vecAdd ys zs)
    rw [vecAdd_assoc xs ys zs, add_assoc]

/-! ### The partial Fisher-Yates shuffle -/

/-- One swap of the C++ loop body: `tmp = vec[i]; vec[i] = vec[ind]; vec[ind] = tmp`.
Out-of-bounds indices leave the list unchanged (the source would be undefined
behaviour there; all uses keep indices in bounds). -/
def swapL (l : List ℕ) (i j : ℕ) : List ℕ :=
  if i < l.length ∧ j < l.length then
    (l.set i (l.getD j 0)).set j (l.getD i 0)
  else l

/-- `shuffle(vec, offset)` from the source: a partial Fisher-Yates pass whose
step `k` (for `k + 1 < offset`, the translation of `k < offset - 1.0`) swaps
position `k` with position `d k = floor(Rf_runif(k, offset))`, supplied by the
index-draw oracle `d`. -/
def shuffle (l : List ℕ) (offset : ℕ) (d : ℕ → ℕ) : List ℕ :=
  (List.range (offset - 1)).foldl (fun acc k => swapL acc k (d k)) l

theorem swapL_length (l : List ℕ) (i j : ℕ) : (swapL l i j).length = l.length := by
  unfold swapL; split <;> simp

theorem shuffle_length (l : List ℕ) (offset : ℕ) (d : ℕ → ℕ) :
    (shuffle l offset d).length = l.length := by
  unfold shuffle
  induction List.range (offset - 1) generalizing l with
  | nil => rfl
  | cons k ks ih => simpa [List.foldl_cons, swapL_length] using ih (swapL l k (d k))

theorem swapL_getElem?_ne (l : List ℕ) (i j m : ℕ) (hi : m ≠ i) (hj : m ≠ j) :
    (swapL l i j)[m]? = l[m]? := by
  unfold swapL
  split
  · rw [List.getElem?_set_ne (Ne.symm hj), List.getElem?_set_ne (Ne.symm hi)]
  · rfl

theorem swapL_getD_ne (l : List ℕ) (i j m : ℕ) (hi : m ≠ i) (hj : m ≠ j) :
    (swapL l i j).getD m 0 = l.getD m 0 := by
  simp only [List.getD_eq_getElem?_getD, swapL_getElem?_ne l i j m hi hj]

/-- Setting a position to its own value is the identity. -/
theorem set_getElem_self' (l : List ℕ) (i : ℕ) (h : i < l.length) :
    l.set i l[i] = l := by
  apply List.ext_getElem?
  intro m
  rcases eq_or_ne i m with rfl | hne
  · rw [List.getElem?_set_self', List.getElem?_eq_getElem h]
    rfl
  · exact List.getElem?_set_ne hne

/-- A single in-bounds swap is a permutation of the list. -/
theorem swapL_perm (l : List ℕ) (i j : ℕ) (hi : i < l.length) (hj : j < l.length) :
    (swapL l i j).Perm l := by
  rcases eq_or_ne i j with rfl | hij
  · unfold swapL
    rw [if_pos ⟨hi, hi⟩, List.set_set, List.getD_eq_getElem _ _ hi, set_getElem_self' l i hi]
  · unfold swapL
    rw [if_pos ⟨hi, hj⟩]
    rw [List.perm_iff_count]
    intro b
    have hj' : j < (l.set i (l.getD j 0)).length := by simpa using hj
    rw [List.count_set _ _ _ _ hj', List.count_set _ _ _ _ hi]
    have hgj : (l.set i (l.getD j 0))[j] = l[j] := List.getElem_set_ne hij hj'
    rw [hgj]
    rw [List.getD_eq_getElem _ _ hi, List.getD_eq_getElem _ _ hj]
    have hci : (if (l[i] == b) = true then 1 else 0) ≤ l.count b := by
      by_cases h : (l[i] == b) = true
      · simp only [h, if_true]
        exact List.count_pos_iff.mpr (eq_of_beq h ▸ List.getElem_mem hi)
      · simp [h]
    have hcj : (if (l[j] == b) = true then 1 else 0) ≤ l.count b := by
      by_cases h : (l[j] == b) = true
      · simp only [h, if_true]
        exact List.count_pos_iff.mpr (eq_of_beq h ▸ List.getElem_mem hj)
      · simp [h]
    by_cases h1 : (l[i] == b) = true <;> by_cases h2 : (l[j] == b) = true <;>
      simp only [h1, h2, if_true, if_false] at hci hcj ⊢ <;> omega

/-- Folding swap steps at positions below `off` leaves positions at or beyond
`off` unchanged. -/
theorem foldlSwap_getElem? (d : ℕ → ℕ) (off m : ℕ) (hm : off ≤ m) :
    ∀ (ks : List ℕ) (l : List ℕ), (∀ k ∈ ks, k < off ∧ d k < off) →
      (ks.foldl (fun acc k => swapL acc k (d k)) l)[m]? = l[m]?
  | [], l, _ => rfl
  | k :: ks, l, h => by
    rw [List.foldl_cons]
    rw [foldlSwap_getElem? d off m hm ks (swapL l k (d k))
      (fun x hx => h x (List.mem_cons_of_mem _ hx))]
    have hk := h k (List.mem_cons_self k _)
    exact swapL_getElem?_ne l k (d k) m (by omega) (by omega)

/-- Folding in-bounds swap steps yields a permutation of the list. -/
theorem foldlSwap_perm (d : ℕ → ℕ) :
    ∀ (ks : List ℕ) (l : List ℕ), (∀ k ∈ ks, k < l.length ∧ d k < l.length) →
      (ks.foldl (fun acc k => swapL acc k (d k)) l).Perm l
  | [], l, _ => List.Perm.refl l
  | k :: ks, l, h => by
    rw [List.foldl_cons]
    have hk := h k (List.mem_cons_self k _)
    have hlen : (swapL l k (d k)).length = l.length := swapL_length l k (d k)
    have hrec := foldlSwap_perm d ks (swapL l k (d k)) (by
      intro x hx
      rw [hlen]
      exact h x (List.mem_cons_of_mem _ hx))
    exact hrec.trans (swapL_perm l k (d k) hk.1 hk.2)

/-- Entries at positions at or beyond `offset` are untouched by the partial
Fisher-Yates pass, provided the index draws stay below `offset` as
`floor(Rf_runif(k, offset))` does. -/
theorem shuffle_getElem?_of_ge (l : List ℕ) (offset : ℕ) (d : ℕ → ℕ)
    (hd : ∀ k, k + 1 < offset → d k < offset) (m : ℕ) (hm : offset ≤ m) :
    (shuffle l offset d)[m]? = l[m]? := by
  unfold shuffle
  apply foldlSwap_getElem? d offset m hm
  intro k hk
  rw [List.mem_range] at hk
  exact ⟨by omega, hd k (by omega)⟩

/-- The partial Fisher-Yates pass permutes the list (in-bounds draws). -/
theorem shuffle_perm (l : List ℕ) (offset : ℕ) (d : ℕ → ℕ)
    (hd : ∀ k, k + 1 < offset → d k < offset) (hoff : offset ≤ l.length) :
    (shuffle l offset d).Perm l := by
  unfold shuffle
  apply foldlSwap_perm d
  intro k hk
  rw [List.mem_range] at hk
  exact ⟨by omega, lt_of_lt_of_le (hd k (by omega)) hoff⟩

/-- The suffix from `offset` onwards is unchanged by the partial shuffle. -/
theorem shuffle_drop (l : List ℕ) (offset : ℕ) (d : ℕ → ℕ)
    (hd : ∀ k, k + 1 < offset → d k < offset) :
    (shuffle l offset d).drop offset = l.drop offset := by
  apply List.ext_getElem?
  intro m
  rw [List.getElem?_drop, List.getElem?_drop]
  exact shuffle_getElem?_of_ge l offset d hd (offset + m) (Nat.le_add_right _ _)

/-- The first `offset` entries after the partial shuffle are a permutation of
the first `offset` entries before it. -/
theorem shuffle_take_perm (l : List ℕ) (offset : ℕ) (d : ℕ → ℕ)
    (hd : ∀ k, k + 1 < offset → d k < offset) (hoff : offset ≤ l.length) :
    ((shuffle l offset d).take offset).Perm (l.take offset) := by
  have h1 : (shuffle l offset d).Perm l := shuffle_perm l offset d hd hoff
  have h2 : (shuffle l offset d).drop offset = l.drop offset :=
    shuffle_drop l offset d hd
  have h3 : ((shuffle l offset d).take offset ++ (shuffle l offset d).drop offset).Perm
      (l.take offset ++ l.drop offset) := by
    rw [List.take_append_drop, List.take_append_drop]
    exact h1
  rw [h2] at h3
  exact (List.perm_append_right_iff _).mp h3

/-! ### The vertex-sequential dyad enumeration

`modelFrameGivenOrder` and `generateNetworkWithOrder` share the loop

    for i in [0, n):
      vertex := workingVertOrder[i]
      shuffle(workingVertOrder, i)
      for j in [0, i):
        alter := workingVertOrder[j]
        ... process dyad (vertex, alter) ...

`pairSeqFrom` enumerates the processed `(vertex, alter)` pairs of that loop;
`sd i` is the index-draw oracle consumed by the shuffle at outer step `i`. -/

/-- The `(vertex, alter)` pairs processed from outer step `i` on, with
`steps` outer steps remaining and working order `w`. -/
def pairSeqFrom (sd : ℕ → ℕ → ℕ) : List ℕ → ℕ → ℕ → List (ℕ × ℕ)
  | _, _, 0 => []
  | w, i, steps + 1 =>
    let vertex := w.getD i 0
    let w' := shuffle w i (sd i)
    ((List.range i).map (fun j => (vertex, w'.getD j 0))) ++ pairSeqFrom sd w' (i + 1) steps

/-- All `(vertex, alter)` pairs processed by the vertex-sequential loops for
the visitation order `vert_order`. -/
def pairSeq (vert_order : List ℕ) (sd : ℕ → ℕ → ℕ) : List (ℕ × ℕ) :=
  pairSeqFrom sd vert_order 0 vert_order.length

/-- The dyad occurrences in processing order: a directed network processes
each unordered pair as the two dyads `(vertex, alter)` then `(alter, vertex)`. -/
def dyadOcc (directed : Bool) (ps : List (ℕ × ℕ)) : List (ℕ × ℕ) :=
  if directed then ps.flatMap (fun p => [(p.1, p.2), (p.2, p.1)]) else ps

/-! ### The replay sampler (`modelFrameGivenOrder` / `modelFrameGivenEdgeOrder`) -/

/-- Running state of a replay-sampler call: the running model (a clone of the
no-tie model), the outcome labels, the per-statistic predictor columns, and
the `Rf_runif(0,1)` draw counter. -/
structure FrameState where
  model : Model
  outcome : List Bool
  predictors : List (List ℚ)
  t : ℕ
deriving DecidableEq, Repr

/-- The loop `for k in [0, terms.size): predictors[k].push_back(newTerms[k] - terms[k])`:
appends one scalar delta to every predictor column. -/
def pushCols (terms newTerms : List ℚ) : ℕ → List (List ℚ) → List (List ℚ)
  | _, [] => []
  | k, col :: rest =>
    (col ++ [newTerms.getD k 0 - terms.getD k 0]) :: pushCols terms newTerms (k + 1) rest

/-- One replayed dyad of the replay sampler.  If `sample` is set, the
transactional dyad step is run, the observed tie status decides
commit-vs-rollback, and an outcome label and one predictor scalar per
statistic are recorded; otherwise only an observed tie is committed (with no
recording) and an observed non-tie leaves the state untouched. -/
def replayDyad (obs : Network) (statF : Network → List ℚ) (sample : Bool)
    (v a : ℕ) (st : FrameState) : FrameState :=
  let hasE := obs.hasEdge v a
  if sample then
    let terms := modelStats statF st.model
    let m1 := dyadUpdate v a st.model
    let newTerms := modelStats statF m1
    let m2 := if hasE then commitToggle v a m1 else rollback m1
    { model := m2, outcome := st.outcome ++ [hasE],
      predictors := pushCols terms newTerms 0 st.predictors, t := st.t }
  else
    if hasE then { st with model := commitToggle v a (dyadUpdate v a st.model) } else st

/-- One loop iteration of the replay samplers over a `(vertex, alter)` pair:
a single `Rf_runif(0,1) < downsampleRate` retain draw is shared by the
forward dyad and, on a directed network, the reverse dyad. -/
def framePairStep (obs : Network) (statF : Network → List ℚ) (rate : ℚ)
    (u : ℕ → ℚ) (st : FrameState) (p : ℕ × ℕ) : FrameState :=
  let sample := decide (u st.t < rate)
  let st1 := replayDyad obs statF sample p.1 p.2 { st with t := st.t + 1 }
  if obs.directed then replayDyad obs statF sample p.2 p.1 st1 else st1

/-- Initial state of a replay-sampler call: a fresh clone of the no-tie model
(the observed network with all edges removed), empty outcome and one empty
predictor column per sufficient statistic (`predictors(terms.size)`). -/
def frameInit (obs : Network) (statF : Network → List ℚ) : FrameState :=
  { model := { net := obs.emptyGraph, pending := none },
    outcome := [],
    predictors := List.replicate (statF obs.emptyGraph).length [],
    t := 0 }

/-- `modelFrameGivenOrder(downsampleRate, vert_order)`: replay the observed
network along the vertex-sequential dyad enumeration. -/
def modelFrameGivenOrder (obs : Network) (statF : Network → List ℚ)
    (rate : ℚ) (u : ℕ → ℚ) (sd : ℕ → ℕ → ℕ) (vert_order : List ℕ) : FrameState :=
  (pairSeq vert_order sd).foldl (framePairStep obs statF rate u) (frameInit obs statF)

/-- Largest element of a vector, as `*std::max_element` on a nonempty vector. -/
def maxElt (l : List ℕ) : ℕ := l.foldr max 0

/-- The out-of-range warning test shared by `generateNetworkWithEdgeOrder` and
`calcChangeStats`: `max_tail > (n-1) || max_head > (n-1)`. -/
def permRangeWarn (n : ℕ) (perm_heads perm_tails : List ℕ) : Bool :=
  decide (n - 1 < maxElt perm_tails) || decide (n - 1 < maxElt perm_heads)

/-- `modelFrameGivenEdgeOrder(downsampleRate, perm_heads, perm_tails)`: replay
the observed network along an explicit edge order.  The Boolean component
records whether an out-of-range warning was printed: this function performs
no range check on the supplied edge order, so it is constantly `false`. -/
def modelFrameGivenEdgeOrder (obs : Network) (statF : Network → List ℚ)
    (rate : ℚ) (u : ℕ → ℚ) (perm_heads perm_tails : List ℕ) : Bool × FrameState :=
  (false,
    (perm_tails.zip perm_heads).foldl (framePairStep obs statF rate u) (frameInit obs statF))

/-! ### The generative sampler (`generateNetworkWithOrder` / `generateNetworkWithEdgeOrder`) -/

/-- Running state of a generative-sampler call: the running model, the
incrementally maintained current statistic vector `terms`, the realized
statistics accumulator `stats`, the expected statistics accumulator `eStats`,
and the `Rf_runif(0,1)` draw counter. -/
structure GenState where
  model : Model
  terms : List ℚ
  stats : List ℚ
  eStats : List ℚ
  t : ℕ
deriving DecidableEq, Repr

/-- One dyad of the generative sampler: record `L0 = logLik()`, run the
tentative `dyadUpdate`, read the post-update statistics and `L1`, set
`probTie = 1/(1+exp(-(L1-L0)))`, toggle the edge if the `Rf_runif(0,1)` draw
is below `probTie` and roll back otherwise, then accumulate
`eStats += diff * probTie` unconditionally and `stats += diff`,
`terms += diff` exactly when the tie was realized. -/
def genDyad (statF : Network → List ℚ) (llF : Network → ℚ) (expQ : ℚ → ℚ)
    (u : ℕ → ℚ) (st : GenState) (p : ℕ × ℕ) : GenState :=
  let llik := modelLogLik llF st.model
  let m1 := dyadUpdate p.1 p.2 st.model
  let newTerms := modelStats statF m1
  let llikChange := modelLogLik llF m1 - llik
  let probTie := 1 / (1 + expQ (-llikChange))
  let hasEdge := u st.t < probTie
  let m2 := if hasEdge then commitToggle p.1 p.2 m1 else rollback m1
  let diff := vecSub newTerms st.terms
  { model := m2,
    terms := if hasEdge then vecAdd st.terms diff else st.terms,
    stats := if hasEdge then vecAdd st.stats diff else st.stats,
    eStats := vecAdd st.eStats (vecScale probTie diff),
    t := st.t + 1 }

/-- The tie probability of the generative dyad step,
`probTie = 1/(1+exp(-(L1-L0)))` with `L0` the log-likelihood before the
tentative `dyadUpdate` and `L1` the log-likelihood after it. -/
def dyadProbTie (llF : Network → ℚ) (expQ : ℚ → ℚ) (m : Model) (v a : ℕ) : ℚ :=
  1 / (1 + expQ (-(modelLogLik llF (dyadUpdate v a m) - modelLogLik llF m)))

/-- Initial state of a generative-sampler call (`nStats = thetas().size`):
fresh no-tie clone, `terms`/`newTerms` from its statistics, zeroed `stats`
and `eStats` accumulators. -/
def genInit (obs : Network) (statF : Network → List ℚ) (nStats : ℕ) : GenState :=
  { model := { net := obs.emptyGraph, pending := none },
    terms := statF obs.emptyGraph,
    stats := List.replicate nStats 0,
    eStats := List.replicate nStats 0,
    t := 0 }

/-- Folding the generative dyad step over a dyad-occurrence list. -/
def genRun (statF : Network → List ℚ) (llF : Network → ℚ) (expQ : ℚ → ℚ)
    (u : ℕ → ℚ) (ds : List (ℕ × ℕ)) (st : GenState) : GenState :=
  ds.foldl (genDyad statF llF expQ u) st

/-- The record returned by the generative samplers: the sampled network with
its per-vertex rank annotation, and the statistic vectors. -/
structure GenResult where
  network : Network
  orderAnn : List ℕ
  emptyNetworkStats : List ℚ
  stats : List ℚ
  expectedStats : List ℚ
deriving DecidableEq, Repr

/-- The rank/inverse-permutation computation attached as the per-vertex
discrete annotation named `__order__`:
`rankOrder = vert_order; for i: rankOrder[vert_order[i]] = i`. -/
def rankOrder (vert_order : List ℕ) : List ℕ :=
  (List.range vert_order.length).foldl (fun ro i => ro.set (vert_order.getD i 0) i) vert_order

/-- `generateNetworkWithOrder(vert_order)`: walk the vertex-sequential dyad
enumeration with the generative dyad step and return the sampled network,
annotated with the rank order, plus the statistic vectors.  (The optional
`storeChangeStats` change-statistic table is not modelled.) -/
def generateNetworkWithOrder (obs : Network) (statF : Network → List ℚ)
    (llF : Network → ℚ) (expQ : ℚ → ℚ) (u : ℕ → ℚ) (sd : ℕ → ℕ → ℕ)
    (nStats : ℕ) (vert_order : List ℕ) : GenResult :=
  let st := genRun statF llF expQ u
    (dyadOcc obs.directed (pairSeq vert_order sd)) (genInit obs statF nStats)
  { network := st.model.net,
    orderAnn := rankOrder vert_order,
    emptyNetworkStats := statF obs.emptyGraph,
    stats := st.stats,
    expectedStats := st.eStats }

/-- `generateNetworkWithEdgeOrder(perm_heads, perm_tails)`: walk the supplied
edge order directly (`vertex = perm_tails[i]`, `alter = perm_heads[i]`; no
directed doubling — a directed edge order lists both orientations itself).
The Boolean component records whether the out-of-range warning was printed.
`vert_order` is the internally generated, unused-for-ordering vertex order
that is still rank-annotated onto the emitted network. -/
def generateNetworkWithEdgeOrder (obs : Network) (statF : Network → List ℚ)
    (llF : Network → ℚ) (expQ : ℚ → ℚ) (u : ℕ → ℚ) (nStats : ℕ)
    (vert_order : List ℕ) (perm_heads perm_tails : List ℕ) : Bool × GenResult :=
  let st := genRun statF llF expQ u (perm_tails.zip perm_heads) (genInit obs statF nStats)
  (permRangeWarn obs.n perm_heads perm_tails,
    { network := st.model.net,
      orderAnn := rankOrder vert_order,
      emptyNetworkStats := statF obs.emptyGraph,
      stats := st.stats,
      expectedStats := st.eStats })

/-! ### The change-statistics-only mode (`calcChangeStats`) -/

/-- The actor-index lookup as written in `calcChangeStats`: the loop assigns
the enclosing `actorIndex` (initialised to 1, persisting across dyads) to the
position of `vertex` in `vert_order` and breaks; if `vertex` never occurs the
enclosing value is kept. -/
def lookupIdx (v : ℕ) : List ℕ → Option ℕ
  | [] => none
  | x :: xs => if x = v then some 0 else (lookupIdx v xs).map (· + 1)

/-- The persisting-assignment form of the lookup used by `calcChangeStats`. -/
def actorAssign (vert_order : List ℕ) (v : ℕ) (prev : ℕ) : ℕ :=
  (lookupIdx v vert_order).getD prev

/-- The actor-index computation as written in `modelFrameGivenEdgeOrder`
(outer `int actorIndex = 0;`) and `generateNetworkWithEdgeOrder` (outer
`int actorIndex = 1;`): the search loop declares a NEW local
`int actorIndex = k;` inside its body, which shadows the enclosing variable
and dies at the `break`, so the enclosing initial value is what reaches
`dyadUpdate` on every dyad. -/
def actorLookupShadowed (outerInit : ℕ) (vert_order : List ℕ) (v : ℕ) : ℕ :=
  outerInit

/-- Running state of `calcChangeStats`: running model, the persisting
`actorIndex`, and the accumulated per-dyad change-statistic vectors. -/
structure CalcState where
  model : Model
  actorIndex : ℕ
  changeStats : List (List ℚ)
deriving DecidableEq, Repr

/-- One dyad of `calcChangeStats`: snapshot statistics, look up (and assign)
the actor index, run the tentative update, record `statNew - stat`, then
commit if the observed network has the edge and roll back otherwise. -/
def calcStep (obs : Network) (statF : Network → List ℚ) (vert_order : List ℕ)
    (st : CalcState) (p : ℕ × ℕ) : CalcState :=
  let stat := modelStats statF st.model
  let ai := actorAssign vert_order p.1 st.actorIndex
  let m1 := dyadUpdate p.1 p.2 st.model
  let statNew := modelStats statF m1
  let changeStat := vecSub statNew stat
  let m2 := if obs.hasEdge p.1 p.2 then commitToggle p.1 p.2 m1 else rollback m1
  { model := m2, actorIndex := ai, changeStats := st.changeStats ++ [changeStat] }

/-- `calcChangeStats(perm_heads, perm_tails)`: loop `i` over `[0, e)` with
`e = n(n-1)` (halved when undirected), processing
`(perm_tails[i], perm_heads[i])`; the Boolean component records whether the
out-of-range warning was printed. -/
def calcChangeStats (obs : Network) (statF : Network → List ℚ)
    (vert_order : List ℕ) (perm_heads perm_tails : List ℕ) : Bool × CalcState :=
  let e := if obs.directed then obs.n * (obs.n - 1) else obs.n * (obs.n - 1) / 2
  (permRangeWarn obs.n perm_heads perm_tails,
    (List.range e).foldl
      (fun st i => calcStep obs statF vert_order st (perm_tails.getD i 0, perm_heads.getD i 0))
      { model := { net := obs.emptyGraph, pending := none }, actorIndex := 1, changeStats := [] })

/-! ### Construction and `setModel` (`LatentOrderLikelihood`) -/

/-- The caller-facing model handle: a network, the parameter vector, and the
optional per-vertex ordering covariate (`hasVertexOrder` / `getVertexOrder`). -/
structure ModelSpec where
  net : Network
  thetas : List ℚ
  hasVertexOrder : Bool
  vertexOrder : List ℤ
deriving DecidableEq, Repr

/-- The engine state: the observed-bound model and the empty-bound no-tie
model. -/
structure Engine where
  model : ModelSpec
  noTieModel : ModelSpec
deriving DecidableEq, Repr

/-- `removeEdges`: empty the graph of a model. -/
def removeEdges (m : ModelSpec) : ModelSpec :=
  { m with net := m.net.emptyGraph }

/-- The `Rf_error` message of the constructor check. -/
def configErrMsg : String :=
  "Vertex ordering does not have the same number of elements as there are vertices in the network 95."

/-- The `LatentOrderLikelihood(Model)` constructor: clone the model into the
observed and no-tie slots, then fail with a configuration error when the
model carries a vertex ordering whose length differs from the vertex count. -/
def latentOrderLikelihoodNew (mod : ModelSpec) : Except String Engine :=
  if mod.hasVertexOrder ∧ mod.vertexOrder.length ≠ mod.net.n then
    Except.error configErrMsg
  else
    Except.ok { model := mod, noTieModel := removeEdges mod }

/-- `setModel(mod)`: replace both models.  The source performs no length
validation here, so the operation always succeeds. -/
def setModel (e : Engine) (mod : ModelSpec) : Except String Engine :=
  Except.ok { model := mod, noTieModel := removeEdges mod }

/-! ### Helper lemmas about `rankOrder` -/

theorem set_getD_ne (r : List ℕ) (p q x : ℕ) (h : p ≠ q) :
    (r.set p x).getD q 0 = r.getD q 0 := by
  simp only [List.getD_eq_getElem?_getD, List.getElem?_set_ne h]

theorem set_getD_self (r : List ℕ) (p x : ℕ) (hp : p < r.length) :
    (r.set p x).getD p 0 = x := by
  simp only [List.getD_eq_getElem?_getD, List.getElem?_set_self']
  rw [List.getElem?_eq_getElem hp]
  rfl

/-- Folding rank assignments at positions different from `q` leaves entry `q`
unchanged. -/
theorem foldlSet_getD_ne (vo : List ℕ) :
    ∀ (ks ro : List ℕ) (q : ℕ), (∀ j ∈ ks, vo.getD j 0 ≠ q) →
      (ks.foldl (fun r j => r.set (vo.getD j 0) j) ro).getD q 0 = ro.getD q 0
  | [], _, _, _ => rfl
  | k :: ks, ro, q, h => by
    rw [List.foldl_cons,
      foldlSet_getD_ne vo ks _ q (fun j hj => h j (List.mem_cons_of_mem _ hj)),
      set_getD_ne _ _ _ _ (h k (List.mem_cons_self k _))]

/-- Each step of the rank-assignment fold keeps the vector length. -/
theorem foldlSet_length (vo : List ℕ) :
    ∀ (ks ro : List ℕ),
      (ks.foldl (fun r j => r.set (vo.getD j 0) j) ro).length = ro.length
  | [], _ => rfl
  | k :: ks, ro => by
    rw [List.foldl_cons, foldlSet_length vo ks, List.length_set]

/-- The rank-assignment fold writes `j` at position `vo[j]` for every `j` it
visits, and nothing overwrites it when the visited positions are distinct. -/
theorem rankFoldAux (vo : List ℕ) (hn : vo.Nodup) (hvlt : ∀ x ∈ vo, x < vo.length) :
    ∀ (ks : List ℕ), (∀ j ∈ ks, j < vo.length) → ks.Nodup →
      ∀ (ro : List ℕ), ro.length = vo.length →
      ∀ i ∈ ks, (ks.foldl (fun r j => r.set (vo.getD j 0) j) ro).getD (vo.getD i 0) 0 = i
  | [], _, _, _, _, i, hi => absurd hi (List.not_mem_nil i)
  | k :: ks, hkslt, hksnd, ro, hro, i, hi => by
    rw [List.foldl_cons]
    rcases List.mem_cons.mp hi with rfl | hi'
    · have hklt : i < vo.length := hkslt i (List.mem_cons_self i ks)
      have hvk_mem : vo.getD i 0 ∈ vo := by
        rw [List.getD_eq_getElem _ _ hklt]
        exact List.getElem_mem hklt
      have hvk_lt : vo.getD i 0 < vo.length := hvlt _ hvk_mem
      rw [foldlSet_getD_ne vo ks _ (vo.getD i 0) ?_]
      · exact set_getD_self ro _ i (by rw [hro]; exact hvk_lt)
      · intro j hj
        have hjlt : j < vo.length := hkslt j (List.mem_cons_of_mem _ hj)
        have hne : j ≠ i := fun hEq => (List.nodup_cons.mp hksnd).1 (hEq ▸ hj)
        rw [List.getD_eq_getElem _ _ hjlt, List.getD_eq_getElem _ _ hklt]
        exact fun hEq => hne (hn.getElem_inj_iff.mp hEq)
    · exact rankFoldAux vo hn hvlt ks
        (fun j hj => hkslt j (List.mem_cons_of_mem _ hj))
        (List.nodup_cons.mp hksnd).2
        (ro.set (vo.getD k 0) k) (by rw [List.length_set, hro]) i hi'

/-- On a permutation `vert_order` of `[0, n)`, the rank annotation is the
inverse permutation. -/
theorem rankOrder_inverse (vo : List ℕ) (hperm : vo.Perm (List.range vo.length))
    (i : ℕ) (hi : i < vo.length) :
    (rankOrder vo).getD (vo.getD i 0) 0 = i := by
  have hn : vo.Nodup := hperm.symm.nodup (List.nodup_range _)
  have hvlt : ∀ x ∈ vo, x < vo.length := fun x hx =>
    List.mem_range.mp (hperm.mem_iff.mp hx)
  unfold rankOrder
  exact rankFoldAux vo hn hvlt (List.range vo.length)
    (fun j hj => List.mem_range.mp hj) (List.nodup_range _) vo rfl i (List.mem_range.mpr hi)

/-! ### Helper lemmas about predictor-column bookkeeping -/

theorem pushCols_lengths (terms newTerms : List ℚ) (L : ℕ) :
    ∀ (k : ℕ) (cols : List (List ℚ)), (∀ col ∈ cols, col.length = L) →
      ∀ col ∈ pushCols terms newTerms k cols, col.length = L + 1
  | _, [], _, col, hcol => absurd hcol (List.not_mem_nil col)
  | k, c :: cols, h, col, hcol => by
    rcases List.mem_cons.mp hcol with rfl | hcol'
    · rw [List.length_append, h c (List.mem_cons_self c cols)]
      rfl
    · exact pushCols_lengths terms newTerms L (k + 1) cols
        (fun x hx => h x (List.mem_cons_of_mem _ hx)) col hcol'

/-- A replayed dyad appends an outcome label and one scalar per predictor
column together, or appends to neither. -/
theorem replayDyad_lens (obs : Network) (statF : Network → List ℚ) (sample : Bool)
    (v a : ℕ) (st : FrameState)
    (h : ∀ col ∈ st.predictors, col.length = st.outcome.length) :
    ∀ col ∈ (replayDyad obs statF sample v a st).predictors,
      col.length = (replayDyad obs statF sample v a st).outcome.length := by
  unfold replayDyad
  cases sample with
  | false =>
    simp only [Bool.false_eq_true, if_false]
    split <;> exact h
  | true =>
    simp only [if_true]
    intro col hcol
    rw [List.length_append]
    exact pushCols_lengths _ _ _ 0 st.predictors h col hcol

theorem framePairStep_lens (obs : Network) (statF : Network → List ℚ) (rate : ℚ)
    (u : ℕ → ℚ) (st : FrameState) (p : ℕ × ℕ)
    (h : ∀ col ∈ st.predictors, col.length = st.outcome.length) :
    ∀ col ∈ (framePairStep obs statF rate u st p).predictors,
      col.length = (framePairStep obs statF rate u st p).outcome.length := by
  unfold framePairStep
  have h1 := replayDyad_lens obs statF (decide (u st.t < rate)) p.1 p.2
    { st with t := st.t + 1 } h
  split
  · exact replayDyad_lens obs statF _ p.2 p.1 _ h1
  · exact h1

theorem foldl_framePairStep_lens (obs : Network) (statF : Network → List ℚ)
    (rate : ℚ) (u : ℕ → ℚ) :
    ∀ (ps : List (ℕ × ℕ)) (st : FrameState),
      (∀ col ∈ st.predictors, col.length = st.outcome.length) →
      ∀ col ∈ (ps.foldl (framePairStep obs statF rate u) st).predictors,
        col.length = (ps.foldl (framePairStep obs statF rate u) st).outcome.length
  | [], _, h => h
  | p :: ps, st, h => by
    rw [List.foldl_cons]
    exact foldl_framePairStep_lens obs statF rate u ps _
      (framePairStep_lens obs statF rate u st p h)

theorem frameInit_lens (obs : Network) (statF : Network → List ℚ) :
    ∀ col ∈ (frameInit obs statF).predictors,
      col.length = (frameInit obs statF).outcome.length := by
  intro col hcol
  rw [(List.eq_of_mem_replicate hcol : col = [])]
  rfl

/-! ### The running invariant of the generative sampler -/

/-- Invariant carried by the generative sampler between dyads: every
tentative update has been resolved, the incrementally maintained `terms`
vector equals the statistics of the committed running network, and the
empty-network baseline plus the realized-statistics accumulator also equals
it. -/
def GenInv (statF : Network → List ℚ) (nStats : ℕ) (base : List ℚ) (st : GenState) : Prop :=
  st.model.pending = none ∧
  st.terms = statF st.model.net ∧
  vecAdd base st.stats = st.terms ∧
  st.stats.length = nStats

theorem genDyad_model_eq (statF : Network → List ℚ) (llF : Network → ℚ) (expQ : ℚ → ℚ)
    (u : ℕ → ℚ) (st : GenState) (p : ℕ × ℕ) :
    (genDyad statF llF expQ u st p).model =
      if u st.t < dyadProbTie llF expQ st.model p.1 p.2
      then commitToggle p.1 p.2 (dyadUpdate p.1 p.2 st.model)
      else rollback (dyadUpdate p.1 p.2 st.model) := rfl

theorem genDyad_terms_eq (statF : Network → List ℚ) (llF : Network → ℚ) (expQ : ℚ → ℚ)
    (u : ℕ → ℚ) (st : GenState) (p : ℕ × ℕ) :
    (genDyad statF llF expQ u st p).terms =
      if u st.t < dyadProbTie llF expQ st.model p.1 p.2
      then vecAdd st.terms (vecSub (modelStats statF (dyadUpdate p.1 p.2 st.model)) st.terms)
      else st.terms := rfl

theorem genDyad_stats_eq (statF : Network → List ℚ) (llF : Network → ℚ) (expQ : ℚ → ℚ)
    (u : ℕ → ℚ) (st : GenState) (p : ℕ × ℕ) :
    (genDyad statF llF expQ u st p).stats =
      if u st.t < dyadProbTie llF expQ st.model p.1 p.2
      then vecAdd st.stats (vecSub (modelStats statF (dyadUpdate p.1 p.2 st.model)) st.terms)
      else st.stats := rfl

theorem genDyad_eStats_eq (statF : Network → List ℚ) (llF : Network → ℚ) (expQ : ℚ → ℚ)
    (u : ℕ → ℚ) (st : GenState) (p : ℕ × ℕ) :
    (genDyad statF llF expQ u st p).eStats =
      vecAdd st.eStats (vecScale (dyadProbTie llF expQ st.model p.1 p.2)
        (vecSub (modelStats statF (dyadUpdate p.1 p.2 st.model)) st.terms)) := rfl

theorem genDyad_inv (statF : Network → List ℚ) (llF : Network → ℚ) (expQ : ℚ → ℚ)
    (u : ℕ → ℚ) (nStats : ℕ) (base : List ℚ)
    (hK : ∀ g, (statF g).length = nStats) (st : GenState) (p : ℕ × ℕ)
    (h : GenInv statF nStats base st) :
    GenInv statF nStats base (genDyad statF llF expQ u st p) := by
  obtain ⟨hpend, hterms, hbs, hslen⟩ := h
  have htermslen : st.terms.length = nStats := by rw [hterms, hK]
  have hnewlen : (modelStats statF (dyadUpdate p.1 p.2 st.model)).length = nStats := hK _
  have hdifflen : (vecSub (modelStats statF (dyadUpdate p.1 p.2 st.model)) st.terms).length
      = nStats := by
    rw [vecSub_length, hnewlen, htermslen, min_self]
  by_cases hdrw : u st.t < dyadProbTie llF expQ st.model p.1 p.2
  · refine ⟨?_, ?_, ?_, ?_⟩
    · rw [genDyad_model_eq, if_pos hdrw]
      rfl
    · rw [genDyad_terms_eq, if_pos hdrw, genDyad_model_eq, if_pos hdrw]
      rw [vecAdd_vecSub_cancel st.terms _ (by rw [htermslen, hnewlen])]
      rfl
    · rw [genDyad_stats_eq, if_pos hdrw, genDyad_terms_eq, if_pos hdrw]
      rw [← vecAdd_assoc, hbs]
    · rw [genDyad_stats_eq, if_pos hdrw, vecAdd_length, hslen, hdifflen, min_self]
  · refine ⟨?_, ?_, ?_, ?_⟩
    · rw [genDyad_model_eq, if_neg hdrw]
      rfl
    · rw [genDyad_terms_eq, if_neg hdrw, genDyad_model_eq, if_neg hdrw]
      exact hterms
    · rw [genDyad_stats_eq, if_neg hdrw, genDyad_terms_eq, if_neg hdrw]
      exact hbs
    · rw [genDyad_stats_eq, if_neg hdrw]
      exact hslen

theorem genRun_inv (statF : Network → List ℚ) (llF : Network → ℚ) (expQ : ℚ → ℚ)
    (u : ℕ → ℚ) (nStats : ℕ) (base : List ℚ) (hK : ∀ g, (statF g).length = nStats) :
    ∀ (ds : List (ℕ × ℕ)) (st : GenState), GenInv statF nStats base st →
      GenInv statF nStats base (genRun statF llF expQ u ds st)
  | [], _, h => h
  | p :: ds, st, h => by
    rw [genRun, List.foldl_cons]
    exact genRun_inv statF llF expQ u nStats base hK ds _
      (genDyad_inv statF llF expQ u nStats base hK st p h)

theorem genInit_inv (obs : Network) (statF : Network → List ℚ) (nStats : ℕ)
    (hK : ∀ g, (statF g).length = nStats) :
    GenInv statF nStats (statF obs.emptyGraph) (genInit obs statF nStats) := by
  refine ⟨rfl, rfl, ?_, by simp [genInit]⟩
  show vecAdd (statF obs.emptyGraph) (List.replicate nStats 0) = statF obs.emptyGraph
  rw [← hK obs.emptyGraph]
  exact vecAdd_replicate_zero _

/-! ### Remaining small helpers -/

theorem le_maxElt : ∀ (l : List ℕ) (x : ℕ), x ∈ l → x ≤ maxElt l
  | [], x, h => absurd h (List.not_mem_nil x)
  | y :: ys, x, h => by
    rcases List.mem_cons.mp h with rfl | h'
    · exact le_max_left _ _
    · exact le_trans (le_maxElt ys x h') (le_max_right _ _)

/-- `calcChangeStats` appends exactly one change-statistic vector per loop
iteration. -/
theorem foldl_calcStep_length (obs : Network) (statF : Network → List ℚ)
    (vo perm_tails perm_heads : List ℕ) :
    ∀ (ks : List ℕ) (st : CalcState),
      ((ks.foldl (fun s i => calcStep obs statF vo s (perm_tails.getD i 0, perm_heads.getD i 0))
          st).changeStats).length
        = st.changeStats.length + ks.length
  | [], st => by simp
  | k :: ks, st => by
    rw [List.foldl_cons, foldl_calcStep_length obs statF vo perm_tails perm_heads ks]
    have hone : (calcStep obs statF vo st
        (perm_tails.getD k 0, perm_heads.getD k 0)).changeStats.length
        = st.changeStats.length + 1 := by
      simp [calcStep]
    rw [hone, List.length_cons]
    omega

/-- The ego indices that `modelFrameGivenEdgeOrder` passes to `dyadUpdate`,
one per supplied dyad: the shadowed lookup leaves the outer
`int actorIndex = 0;` in force. -/
def egoSeqModelFrameEdge (vert_order perm_tails : List ℕ) : List ℕ :=
  perm_tails.map (actorLookupShadowed 0 vert_order)

/-- The ego indices that `generateNetworkWithEdgeOrder` passes to
`dyadUpdate`: the shadowed lookup leaves the outer `int actorIndex = 1;` in
force. -/
def egoSeqGenerateEdge (vert_order perm_tails : List ℕ) : List ℕ :=
  perm_tails.map (actorLookupShadowed 1 vert_order)

/-- The ego indices that `calcChangeStats` passes to `dyadUpdate`: its loop
assigns the enclosing `actorIndex` (initialised to 1) before each
`dyadUpdate`, keeping the previous value when the tail vertex is not found. -/
def egoSeqCalc (vert_order perm_tails : List ℕ) : List ℕ :=
  (perm_tails.foldl
    (fun (st : ℕ × List ℕ) v =>
      (actorAssign vert_order v st.1, st.2 ++ [actorAssign vert_order v st.1]))
    (1, [])).2

/-! ### Concrete fixtures shared by witnesses -/

/-- A 4-vertex undirected observed network with the 2 edges 0-1 and 2-3. -/
def obs4 : Network := { n := 4, directed := false, edges := [(0, 1), (2, 3)] }

/-- A single sufficient statistic: the edge count. -/
def statEdgeCount : Network → List ℚ := fun g => [(g.edges.length : ℚ)]

/-- A concrete log-likelihood map. -/
def llEdgeCount : Network → ℚ := fun g => (g.edges.length : ℚ)

/-- A concrete stand-in for `x ↦ exp(x)`. -/
def expOne : ℚ → ℚ := fun _ => 1

/-- Constant uniform draws 1/2 and 0, and zero index draws. -/
def uHalf : ℕ → ℚ := fun _ => 1 / 2

def uZero : ℕ → ℚ := fun _ => 0

def sdZero : ℕ → ℕ → ℕ := fun _ _ => 0

/-- A 3-vertex undirected network with one edge. -/
def netTri : Network := { n := 3, directed := false, edges := [(0, 1)] }

/-- A model whose vertex-order covariate has 2 entries but whose network has
3 vertices. -/
def modMismatch : ModelSpec :=
  { net := netTri, thetas := [0], hasVertexOrder := true, vertexOrder := [1, 2] }

def engineBase : Engine := { model := modMismatch, noTieModel := removeEdges modMismatch }

/-! ### Claims -/

/-- Claim C1: in the generative sampler, for every dyad processed the tie
probability is `probTie = 1/(1+exp(-(L1-L0)))` with `L0` the running model
log-likelihood before the tentative `dyadUpdate` and `L1` the one after it;
the edge is toggled exactly when the draw is below `probTie` and the model is
rolled back to its previous state otherwise; the expected-statistics
accumulator gains `diff * probTie` unconditionally; and the
realized-statistics accumulator gains `diff` exactly when the tie was
realized.  (`genDyad` is the loop body of both `generateNetworkWithOrder`
and `generateNetworkWithEdgeOrder`.) -/
theorem claim_C1 (statF : Network → List ℚ) (llF : Network → ℚ) (expQ : ℚ → ℚ)
    (u : ℕ → ℚ) (st : GenState) (v a : ℕ) (hpend : st.model.pending = none) :
    ((genDyad statF llF expQ u st (v, a)).model =
      if u st.t < dyadProbTie llF expQ st.model v a
      then commitToggle v a (dyadUpdate v a st.model)
      else st.model) ∧
    (genDyad statF llF expQ u st (v, a)).eStats =
      vecAdd st.eStats (vecScale (dyadProbTie llF expQ st.model v a)
        (vecSub (modelStats statF (dyadUpdate v a st.model)) st.terms)) ∧
    (genDyad statF llF expQ u st (v, a)).stats =
      (if u st.t < dyadProbTie llF expQ st.model v a
       then vecAdd st.stats (vecSub (modelStats statF (dyadUpdate v a st.model)) st.terms)
       else st.stats) := by
  refine ⟨?_, genDyad_eStats_eq statF llF expQ u st (v, a),
    genDyad_stats_eq statF llF expQ u st (v, a)⟩
  rw [genDyad_model_eq]
  by_cases hdrw : u st.t < dyadProbTie llF expQ st.model v a
  · rw [if_pos hdrw, if_pos hdrw]
  · rw [if_neg hdrw, if_neg hdrw]
    show { st.model with pending := none } = st.model
    rw [← hpend]

theorem claim_C1_witness :
    (genInit obs4 statEdgeCount 1).model.pending = none ∧
    (((genDyad statEdgeCount llEdgeCount expOne uHalf (genInit obs4 statEdgeCount 1)
        (0, 1)).model =
      if uHalf (genInit obs4 statEdgeCount 1).t <
          dyadProbTie llEdgeCount expOne (genInit obs4 statEdgeCount 1).model 0 1
      then commitToggle 0 1 (dyadUpdate 0 1 (genInit obs4 statEdgeCount 1).model)
      else (genInit obs4 statEdgeCount 1).model) ∧
    (genDyad statEdgeCount llEdgeCount expOne uHalf (genInit obs4 statEdgeCount 1)
        (0, 1)).eStats =
      vecAdd (genInit obs4 statEdgeCount 1).eStats
        (vecScale (dyadProbTie llEdgeCount expOne (genInit obs4 statEdgeCount 1).model 0 1)
          (vecSub (modelStats statEdgeCount
              (dyadUpdate 0 1 (genInit obs4 statEdgeCount 1).model))
            (genInit obs4 statEdgeCount 1).terms)) ∧
    (genDyad statEdgeCount llEdgeCount expOne uHalf (genInit obs4 statEdgeCount 1)
        (0, 1)).stats =
      (if uHalf (genInit obs4 statEdgeCount 1).t <
          dyadProbTie llEdgeCount expOne (genInit obs4 statEdgeCount 1).model 0 1
       then vecAdd (genInit obs4 statEdgeCount 1).stats
          (vecSub (modelStats statEdgeCount
              (dyadUpdate 0 1 (genInit obs4 statEdgeCount 1).model))
            (genInit obs4 statEdgeCount 1).terms)
       else (genInit obs4 statEdgeCount 1).stats)) :=
  ⟨rfl, claim_C1 statEdgeCount llEdgeCount expOne uHalf (genInit obs4 statEdgeCount 1) 0 1 rfl⟩

/-- Claim C2: for every model and every visitation order, recomputing the
statistics of the network emitted by `generateNetworkWithOrder` from scratch
gives the reported empty-network baseline plus the accumulated realized
statistics; equivalently, after any prefix of the dyad walk (so at the start
of each dyad iteration) the local vector `terms` equals the running model
current statistic vector. -/
theorem claim_C2 (obs : Network) (statF : Network → List ℚ) (llF : Network → ℚ)
    (expQ : ℚ → ℚ) (u : ℕ → ℚ) (sd : ℕ → ℕ → ℕ) (nStats : ℕ) (vo : List ℕ)
    (hK : ∀ g, (statF g).length = nStats) :
    statF (generateNetworkWithOrder obs statF llF expQ u sd nStats vo).network =
      vecAdd (generateNetworkWithOrder obs statF llF expQ u sd nStats vo).emptyNetworkStats
        (generateNetworkWithOrder obs statF llF expQ u sd nStats vo).stats ∧
    ∀ ds₁ ds₂ : List (ℕ × ℕ),
      dyadOcc obs.directed (pairSeq vo sd) = ds₁ ++ ds₂ →
      (genRun statF llF expQ u ds₁ (genInit obs statF nStats)).terms =
        statF (genRun statF llF expQ u ds₁ (genInit obs statF nStats)).model.net := by
  have hinit := genInit_inv obs statF nStats hK
  constructor
  · obtain ⟨-, hterms, hbs, -⟩ := genRun_inv statF llF expQ u nStats (statF obs.emptyGraph)
      hK (dyadOcc obs.directed (pairSeq vo sd)) _ hinit
    show statF (genRun statF llF expQ u (dyadOcc obs.directed (pairSeq vo sd))
        (genInit obs statF nStats)).model.net
      = vecAdd (statF obs.emptyGraph) (genRun statF llF expQ u
        (dyadOcc obs.directed (pairSeq vo sd)) (genInit obs statF nStats)).stats
    rw [hbs, hterms]
  · intro ds₁ ds₂ hsplit
    obtain ⟨-, hterms, -, -⟩ := genRun_inv statF llF expQ u nStats (statF obs.emptyGraph)
      hK ds₁ _ hinit
    exact hterms

theorem claim_C2_witness :
    (∀ g, (statEdgeCount g).length = 1) ∧
    (statEdgeCount (generateNetworkWithOrder obs4 statEdgeCount llEdgeCount expOne uHalf
        sdZero 1 [0, 1, 2, 3]).network =
      vecAdd (generateNetworkWithOrder obs4 statEdgeCount llEdgeCount expOne uHalf
          sdZero 1 [0, 1, 2, 3]).emptyNetworkStats
        (generateNetworkWithOrder obs4 statEdgeCount llEdgeCount expOne uHalf
          sdZero 1 [0, 1, 2, 3]).stats ∧
    ∀ ds₁ ds₂ : List (ℕ × ℕ),
      dyadOcc obs4.directed (pairSeq [0, 1, 2, 3] sdZero) = ds₁ ++ ds₂ →
      (genRun statEdgeCount llEdgeCount expOne uHalf ds₁
          (genInit obs4 statEdgeCount 1)).terms =
        statEdgeCount (genRun statEdgeCount llEdgeCount expOne uHalf ds₁
          (genInit obs4 statEdgeCount 1)).model.net) :=
  ⟨fun _ => rfl, claim_C2 obs4 statEdgeCount llEdgeCount expOne uHalf sdZero 1 [0, 1, 2, 3]
    (fun _ => rfl)⟩

/-- Claim C9: after generation the per-vertex discrete annotation attached to
the emitted network is the inverse permutation of the visitation order: for
every position `i` in `[0, n)` the annotation value of vertex
`vert_order[i]` is `i`, for both `generateNetworkWithOrder` and
`generateNetworkWithEdgeOrder`. -/
theorem claim_C9 (obs : Network) (statF : Network → List ℚ) (llF : Network → ℚ)
    (expQ : ℚ → ℚ) (u : ℕ → ℚ) (sd : ℕ → ℕ → ℕ) (nStats : ℕ)
    (perm_heads perm_tails : List ℕ) (vo : List ℕ)
    (hperm : vo.Perm (List.range vo.length)) :
    ∀ i, i < vo.length →
      (generateNetworkWithOrder obs statF llF expQ u sd nStats vo).orderAnn.getD
          (vo.getD i 0) 0 = i ∧
      (generateNetworkWithEdgeOrder obs statF llF expQ u nStats vo
          perm_heads perm_tails).2.orderAnn.getD (vo.getD i 0) 0 = i := by
  intro i hi
  exact ⟨rankOrder_inverse vo hperm i hi, rankOrder_inverse vo hperm i hi⟩

theorem claim_C9_witness :
    (([2, 0, 1] : List ℕ).Perm (List.range ([2, 0, 1] : List ℕ).length)) ∧ 0 < 3 ∧
    ((generateNetworkWithOrder netTri statEdgeCount llEdgeCount expOne uHalf sdZero 1
        [2, 0, 1]).orderAnn.getD (([2, 0, 1] : List ℕ).getD 0 0) 0 = 0 ∧
      (generateNetworkWithEdgeOrder netTri statEdgeCount llEdgeCount expOne uHalf 1
        [2, 0, 1] [0] [1]).2.orderAnn.getD (([2, 0, 1] : List ℕ).getD 0 0) 0 = 0) :=
  ⟨by decide, by decide,
    claim_C9 netTri statEdgeCount llEdgeCount expOne uHalf sdZero 1 [0] [1] [2, 0, 1]
      (by decide) 0 (by decide)⟩

/-- Claim C10: in both replay samplers, the outcome label vector and every
predictor column always have the same length — a label and one scalar per
statistic are appended together for each retained dyad and never
separately. -/
theorem claim_C10 (obs : Network) (statF : Network → List ℚ) (rate : ℚ) (u : ℕ → ℚ)
    (sd : ℕ → ℕ → ℕ) (vo : List ℕ) (perm_heads perm_tails : List ℕ) :
    (∀ col ∈ (modelFrameGivenOrder obs statF rate u sd vo).predictors,
      col.length = (modelFrameGivenOrder obs statF rate u sd vo).outcome.length) ∧
    (∀ col ∈ (modelFrameGivenEdgeOrder obs statF rate u perm_heads perm_tails).2.predictors,
      col.length =
        (modelFrameGivenEdgeOrder obs statF rate u perm_heads perm_tails).2.outcome.length) :=
  ⟨foldl_framePairStep_lens obs statF rate u _ _ (frameInit_lens obs statF),
    foldl_framePairStep_lens obs statF rate u _ _ (frameInit_lens obs statF)⟩

theorem claim_C10_witness :
    (∀ col ∈ (modelFrameGivenOrder obs4 statEdgeCount 1 uHalf sdZero [0, 1, 2, 3]).predictors,
      col.length = (modelFrameGivenOrder obs4 statEdgeCount 1 uHalf sdZero
        [0, 1, 2, 3]).outcome.length) ∧
    (∀ col ∈ (modelFrameGivenEdgeOrder obs4 statEdgeCount 1 uHalf [0] [1]).2.predictors,
      col.length = (modelFrameGivenEdgeOrder obs4 statEdgeCount 1 uHalf
        [0] [1]).2.outcome.length) :=
  claim_C10 obs4 statEdgeCount 1 uHalf sdZero [0, 1, 2, 3] [0] [1]

/-- Claim C5, evaluated at the failing input (code bug): with
`vert_order = [0, 1]` and dyad tails `[0, 1]`, the position of each tail in
the vertex order is `[0, 1]`, and `calcChangeStats` indeed passes those ego
indices; but `generateNetworkWithEdgeOrder` passes `[1, 1]` (its outer
`int actorIndex = 1;` is never updated, because the lookup loop declares a
new shadowing `int actorIndex = k;`) and `modelFrameGivenEdgeOrder`
likewise passes `[0, 0]`. -/
theorem claim_C5_failing_input :
    egoSeqGenerateEdge [0, 1] [0, 1] = [1, 1] ∧
    egoSeqModelFrameEdge [0, 1] [0, 1] = [0, 0] ∧
    egoSeqCalc [0, 1] [0, 1] = [0, 1] ∧
    ([0, 1] : List ℕ).map (fun v => (lookupIdx v [0, 1]).getD 0) = [0, 1] ∧
    egoSeqGenerateEdge [0, 1] [0, 1] ≠
      ([0, 1] : List ℕ).map (fun v => (lookupIdx v [0, 1]).getD 0) := by
  refine ⟨rfl, rfl, rfl, rfl, ?_⟩
  decide

/-- The formalized claim C6 reading at a concrete input: there are admissible
index draws for the `shuffle(workingVertOrder, i)` call at outer step
`i = 2` of the working order `[0, 1, 2, 3]` under which the relative order of
the not-yet-activated suffix changes. -/
def suffixRerandomizedClaim : Prop :=
  ∃ d : ℕ → ℕ, (∀ k, k + 1 < 2 → d k < 2) ∧
    (shuffle [0, 1, 2, 3] 2 d).drop 2 ≠ [2, 3]

/-- Claim C6 counterexample: the claim is false at the concrete input
(working order `[0, 1, 2, 3]`, outer step `i = 2`): no admissible draws can
change the unvisited suffix, because `shuffle(v, i)` only touches the first
`i` positions. -/
theorem claim_C6_counterexample : ¬ suffixRerandomizedClaim := by
  rintro ⟨d, hd, hne⟩
  exact hne (shuffle_drop [0, 1, 2, 3] 2 d hd)

/-- Claim C6 (amended): at each outer step `i` of vertex-order sampling, the
call `shuffle(workingVertOrder, i)` re-randomizes the relative order of the
already-activated vertices — it permutes the first `i` entries, which the
inner loop then visits as alters — while the not-yet-activated suffix
(positions `i` and beyond) is pointwise unchanged; in particular the set of
activated vertices is unchanged by the shuffle. -/
theorem claim_C6 (w : List ℕ) (i : ℕ) (d : ℕ → ℕ)
    (hd : ∀ k, k + 1 < i → d k < i) (hi : i ≤ w.length) :
    (shuffle w i d).drop i = w.drop i ∧
    ((shuffle w i d).take i).Perm (w.take i) ∧
    (shuffle w i d).Perm w :=
  ⟨shuffle_drop w i d hd, shuffle_take_perm w i d hd hi, shuffle_perm w i d hd hi⟩

theorem claim_C6_witness :
    (∀ k, k + 1 < 3 → sdZero 3 k < 3) ∧ 3 ≤ ([3, 1, 0, 2] : List ℕ).length ∧
    ((shuffle [3, 1, 0, 2] 3 (sdZero 3)).drop 3 = ([3, 1, 0, 2] : List ℕ).drop 3 ∧
      ((shuffle [3, 1, 0, 2] 3 (sdZero 3)).take 3).Perm (([3, 1, 0, 2] : List ℕ).take 3) ∧
      (shuffle [3, 1, 0, 2] 3 (sdZero 3)).Perm [3, 1, 0, 2]) :=
  ⟨fun k _ => by simp [sdZero], by decide,
    claim_C6 [3, 1, 0, 2] 3 (sdZero 3) (fun k _ => by simp [sdZero]) (by decide)⟩

/-- The formalized claim C7: a vertex-order length mismatch is rejected with
a configuration error both at construction and at `setModel`. -/
def constructionAndSetModelReject : Prop :=
  ∀ (e : Engine) (mod : ModelSpec), mod.hasVertexOrder = true →
    mod.vertexOrder.length ≠ mod.net.n →
    latentOrderLikelihoodNew mod = Except.error configErrMsg ∧
    ∃ msg, setModel e mod = Except.error msg

/-- Claim C7 counterexample: for the concrete model whose vertex order has 2
entries over a 3-vertex network, `setModel` succeeds — the source performs
the length check only in the constructor. -/
theorem claim_C7_counterexample : ¬ constructionAndSetModelReject := by
  intro h
  obtain ⟨-, msg, hmsg⟩ := h engineBase modMismatch rfl (by decide)
  simp [setModel] at hmsg

/-- Claim C7 (amended): a model carrying a vertex order whose length differs
from the network vertex count is rejected with the configuration error at
construction (`LatentOrderLikelihood(Model)`), but `setModel` performs no
such validation and always succeeds. -/
theorem claim_C7 (e : Engine) (mod : ModelSpec) (hvo : mod.hasVertexOrder = true)
    (hlen : mod.vertexOrder.length ≠ mod.net.n) :
    latentOrderLikelihoodNew mod = Except.error configErrMsg ∧
    setModel e mod = Except.ok { model := mod, noTieModel := removeEdges mod } := by
  constructor
  · unfold latentOrderLikelihoodNew
    rw [if_pos ⟨hvo, hlen⟩]
  · rfl

theorem claim_C7_witness :
    modMismatch.hasVertexOrder = true ∧
    modMismatch.vertexOrder.length ≠ modMismatch.net.n ∧
    (latentOrderLikelihoodNew modMismatch = Except.error configErrMsg ∧
      setModel engineBase modMismatch =
        Except.ok { model := modMismatch, noTieModel := removeEdges modMismatch }) :=
  ⟨rfl, by decide, claim_C7 engineBase modMismatch rfl (by decide)⟩

/-! ### Edge toggling lemmas -/

theorem hasEdge_iff (g : Network) (x y : ℕ) :
    g.hasEdge x y = true ↔
      ((x, y) ∈ g.edges ∨ (g.directed = false ∧ (y, x) ∈ g.edges)) := by
  unfold Network.hasEdge
  cases hdir : g.directed with
  | true => simp [List.elem_iff, List.contains]
  | false => simp [List.elem_iff, List.contains]

theorem toggle_directed (g : Network) (v a : ℕ) :
    (g.toggle v a).directed = g.directed := by
  unfold Network.toggle
  split <;> rfl

theorem hasEdge_emptyGraph (g : Network) (x y : ℕ) :
    (g.emptyGraph).hasEdge x y = false := by
  unfold Network.emptyGraph Network.hasEdge
  split <;> rfl

theorem emptyGraph_directed (g : Network) : (g.emptyGraph).directed = g.directed := rfl

/-- A network is symmetric in its dyad query when undirected. -/
theorem hasEdge_symm (g : Network) (hdir : g.directed = false) (x y : ℕ) :
    g.hasEdge x y = g.hasEdge y x := by
  unfold Network.hasEdge
  rw [hdir]
  simp [Bool.or_comm]

/-- Toggling an absent dyad makes it present. -/
theorem hasEdge_toggle_self (g : Network) (v a : ℕ) (h : g.hasEdge v a = false) :
    (g.toggle v a).hasEdge v a = true := by
  unfold Network.toggle
  rw [h]
  simp only [Bool.false_eq_true, if_false]
  unfold Network.hasEdge
  cases hdir : g.directed <;> simp [List.contains, List.elem_cons]

/-- Toggling dyad `(v,a)` does not affect the query at any other dyad: on a
directed network any ordered pair other than `(v,a)`, on an undirected one
any pair other than `(v,a)` and `(a,v)`. -/
theorem hasEdge_toggle_ne (g : Network) (v a x y : ℕ)
    (h1 : (x, y) ≠ (v, a)) (h2 : g.directed = false → (x, y) ≠ (a, v)) :
    (g.toggle v a).hasEdge x y = g.hasEdge x y := by
  have hmem : ∀ p : ℕ × ℕ, p ≠ (v, a) → (g.directed = false → p ≠ (a, v)) →
      (p ∈ (g.toggle v a).edges ↔ p ∈ g.edges) := by
    intro p hp1 hp2
    unfold Network.toggle
    split
    · simp only [List.mem_filter]
      constructor
      · exact fun hh => hh.1
      · intro hh
        refine ⟨hh, ?_⟩
        rw [decide_eq_false hp1]
        cases hdir : g.directed with
        | true => rfl
        | false =>
          rw [decide_eq_false (hp2 hdir)]
          rfl
    · simp only [List.mem_cons]
      constructor
      · rintro (rfl | hh)
        · exact absurd rfl hp1
        · exact hh
      · exact fun hh => Or.inr hh
  have hd := toggle_directed g v a
  cases hq : (g.toggle v a).hasEdge x y with
  | true =>
    rw [hasEdge_iff] at hq
    symm
    rw [hasEdge_iff]
    rcases hq with hq | ⟨hdir, hq⟩
    · exact Or.inl ((hmem (x, y) h1 h2).mp hq)
    · rw [hd] at hdir
      refine Or.inr ⟨hdir, (hmem (y, x) ?_ ?_).mp hq⟩
      · intro hEq
        exact h2 hdir (by
          obtain ⟨h3, h4⟩ := Prod.mk.injEq .. ▸ hEq
          simp only [Prod.mk.injEq] at hEq ⊢
          exact ⟨hEq.2, hEq.1⟩)
      · intro _ hEq
        exact h1 (by
          simp only [Prod.mk.injEq] at hEq ⊢
          exact ⟨hEq.2, hEq.1⟩)
  | false =>
    symm
    rw [← Bool.not_eq_true] at hq ⊢
    intro hcon
    apply hq
    rw [hasEdge_iff] at hcon ⊢
    rcases hcon with hcon | ⟨hdir, hcon⟩
    · exact Or.inl ((hmem (x, y) h1 h2).mpr hcon)
    · rw [← hd] at hdir
      refine Or.inr ⟨hdir, (hmem (y, x) ?_ ?_).mpr hcon⟩
      · intro hEq
        rw [hd] at hdir
        exact h2 hdir (by
          simp only [Prod.mk.injEq] at hEq ⊢
          exact ⟨hEq.2, hEq.1⟩)
      · intro _ hEq
        exact h1 (by
          simp only [Prod.mk.injEq] at hEq ⊢
          exact ⟨hEq.2, hEq.1⟩)

/-! ### Outcome labels at downsample rate 1 (claim C3) -/

theorem replayDyad_outcome_true (obs : Network) (statF : Network → List ℚ)
    (v a : ℕ) (st : FrameState) :
    (replayDyad obs statF true v a st).outcome = st.outcome ++ [obs.hasEdge v a] := by
  rfl

theorem replayDyad_t (obs : Network) (statF : Network → List ℚ) (sample : Bool)
    (v a : ℕ) (st : FrameState) :
    (replayDyad obs statF sample v a st).t = st.t := by
  unfold replayDyad
  cases sample with
  | true => rfl
  | false =>
    simp only [Bool.false_eq_true, if_false]
    split <;> rfl

theorem framePairStep_outcome_rate1 (obs : Network) (statF : Network → List ℚ)
    (u : ℕ → ℚ) (st : FrameState) (p : ℕ × ℕ) (hu : u st.t < 1) :
    (framePairStep obs statF 1 u st p).outcome =
      st.outcome ++ (if obs.directed then [obs.hasEdge p.1 p.2, obs.hasEdge p.2 p.1]
        else [obs.hasEdge p.1 p.2]) := by
  unfold framePairStep
  rw [decide_eq_true hu]
  by_cases hdir : obs.directed = true
  · rw [if_pos hdir, if_pos hdir, replayDyad_outcome_true, replayDyad_outcome_true]
    simp
  · rw [if_neg hdir, if_neg hdir, replayDyad_outcome_true]

theorem framePairStep_t (obs : Network) (statF : Network → List ℚ) (rate : ℚ)
    (u : ℕ → ℚ) (st : FrameState) (p : ℕ × ℕ) :
    (framePairStep obs statF rate u st p).t = st.t + 1 := by
  unfold framePairStep
  split
  · rw [replayDyad_t, replayDyad_t]
  · rw [replayDyad_t]

/-- At downsample rate 1 (with all uniform draws below 1) the replay fold
appends exactly the observed tie status of every processed dyad
occurrence. -/
theorem foldl_frame_outcome_rate1 (obs : Network) (statF : Network → List ℚ)
    (u : ℕ → ℚ) (hu : ∀ t, u t < 1) :
    ∀ (ps : List (ℕ × ℕ)) (st : FrameState),
      (ps.foldl (framePairStep obs statF 1 u) st).outcome =
        st.outcome ++ (dyadOcc obs.directed ps).map (fun p => obs.hasEdge p.1 p.2)
  | [], st => by
    unfold dyadOcc
    split <;> simp
  | p :: ps, st => by
    rw [List.foldl_cons,
      foldl_frame_outcome_rate1 obs statF u hu ps (framePairStep obs statF 1 u st p),
      framePairStep_outcome_rate1 obs statF u st p (hu st.t)]
    unfold dyadOcc
    by_cases hdir : obs.directed = true <;>
      simp [hdir, List.flatMap_cons]

/-- The number of predictor columns never changes. -/
theorem pushCols_count (terms newTerms : List ℚ) :
    ∀ (k : ℕ) (cols : List (List ℚ)),
      (pushCols terms newTerms k cols).length = cols.length
  | _, [] => rfl
  | k, c :: cols => by
    show (pushCols terms newTerms (k + 1) cols).length + 1 = cols.length + 1
    rw [pushCols_count terms newTerms (k + 1) cols]

theorem replayDyad_pred_count (obs : Network) (statF : Network → List ℚ)
    (sample : Bool) (v a : ℕ) (st : FrameState) :
    (replayDyad obs statF sample v a st).predictors.length = st.predictors.length := by
  unfold replayDyad
  cases sample with
  | true => exact pushCols_count _ _ 0 st.predictors
  | false =>
    simp only [Bool.false_eq_true, if_false]
    split <;> rfl

theorem framePairStep_pred_count (obs : Network) (statF : Network → List ℚ) (rate : ℚ)
    (u : ℕ → ℚ) (st : FrameState) (p : ℕ × ℕ) :
    (framePairStep obs statF rate u st p).predictors.length = st.predictors.length := by
  unfold framePairStep
  split
  · rw [replayDyad_pred_count, replayDyad_pred_count]
  · rw [replayDyad_pred_count]

theorem foldl_frame_pred_count (obs : Network) (statF : Network → List ℚ) (rate : ℚ)
    (u : ℕ → ℚ) :
    ∀ (ps : List (ℕ × ℕ)) (st : FrameState),
      (ps.foldl (framePairStep obs statF rate u) st).predictors.length
        = st.predictors.length
  | [], _ => rfl
  | p :: ps, st => by
    rw [List.foldl_cons, foldl_frame_pred_count obs statF rate u ps,
      framePairStep_pred_count]

/-- Twice the number of pairs enumerated from outer step `i` with `steps`
steps remaining. -/
theorem pairSeqFrom_length (sd : ℕ → ℕ → ℕ) :
    ∀ (steps : ℕ) (w : List ℕ) (i : ℕ),
      2 * (pairSeqFrom sd w i steps).length = steps * (2 * i + steps - 1)
  | 0, _, _ => by simp [pairSeqFrom]
  | steps + 1, w, i => by
    show 2 * ((List.range i).map
        (fun j => (w.getD i 0, (shuffle w i (sd i)).getD j 0)) ++
        pairSeqFrom sd (shuffle w i (sd i)) (i + 1) steps).length
      = (steps + 1) * (2 * i + (steps + 1) - 1)
    rw [List.length_append, List.length_map, List.length_range, Nat.mul_add,
      pairSeqFrom_length sd steps (shuffle w i (sd i)) (i + 1)]
    cases steps with
    | zero => omega
    | succ s =>
      have h1 : 2 * (i + 1) + (s + 1) - 1 = 2 * i + s + 2 := by omega
      have h2 : 2 * i + (s + 1 + 1) - 1 = 2 * i + s + 1 := by omega
      rw [h1, h2]
      ring

/-- The vertex-sequential enumeration of an order of length `n` visits
`n(n-1)/2` unordered pairs. -/
theorem pairSeq_length (vo : List ℕ) (sd : ℕ → ℕ → ℕ) :
    2 * (pairSeq vo sd).length = vo.length * (vo.length - 1) := by
  unfold pairSeq
  rw [pairSeqFrom_length sd vo.length vo 0]
  cases vo.length with
  | zero => rfl
  | succ n => ring_nf

theorem dyadOcc_length (directed : Bool) (ps : List (ℕ × ℕ)) :
    (dyadOcc directed ps).length = (if directed then 2 * ps.length else ps.length) := by
  unfold dyadOcc
  cases directed with
  | false => rfl
  | true =>
    simp only [if_true]
    induction ps with
    | nil => rfl
    | cons p ps ih =>
      rw [List.flatMap_cons, List.length_append, ih, List.length_cons]
      simp
      omega

/-- Claim C3: with `downsampleRate = 1.0` (every `Rf_runif(0,1)` draw is
below 1) `modelFrameGivenOrder` retains every processed dyad — one outcome
row per dyad occurrence, two per unordered pair when directed — and each
outcome label equals the observed network's tie presence at the
corresponding dyad; each retained dyad also gets one feature scalar per
sufficient statistic, and on an undirected `n`-vertex network there are
exactly `n(n-1)/2` outcome rows. -/
theorem claim_C3 (obs : Network) (statF : Network → List ℚ) (u : ℕ → ℚ)
    (sd : ℕ → ℕ → ℕ) (vo : List ℕ) (hu : ∀ t, u t < 1) :
    (modelFrameGivenOrder obs statF 1 u sd vo).outcome =
      (dyadOcc obs.directed (pairSeq vo sd)).map (fun p => obs.hasEdge p.1 p.2) ∧
    (∀ col ∈ (modelFrameGivenOrder obs statF 1 u sd vo).predictors,
      col.length = (dyadOcc obs.directed (pairSeq vo sd)).length) ∧
    (modelFrameGivenOrder obs statF 1 u sd vo).predictors.length
      = (statF obs.emptyGraph).length ∧
    (obs.directed = false →
      2 * (modelFrameGivenOrder obs statF 1 u sd vo).outcome.length
        = vo.length * (vo.length - 1)) := by
  have houtcome : (modelFrameGivenOrder obs statF 1 u sd vo).outcome =
      (dyadOcc obs.directed (pairSeq vo sd)).map (fun p => obs.hasEdge p.1 p.2) := by
    have h : (modelFrameGivenOrder obs statF 1 u sd vo).outcome =
        [] ++ (dyadOcc obs.directed (pairSeq vo sd)).map (fun p => obs.hasEdge p.1 p.2) :=
      foldl_frame_outcome_rate1 obs statF u hu (pairSeq vo sd) (frameInit obs statF)
    rw [List.nil_append] at h
    exact h
  refine ⟨houtcome, ?_, ?_, ?_⟩
  · intro col hcol
    have h : col.length = (modelFrameGivenOrder obs statF 1 u sd vo).outcome.length :=
      foldl_framePairStep_lens obs statF 1 u (pairSeq vo sd) (frameInit obs statF)
        (frameInit_lens obs statF) col hcol
    rw [h, houtcome, List.length_map]
  · have h : (modelFrameGivenOrder obs statF 1 u sd vo).predictors.length
        = (List.replicate (statF obs.emptyGraph).length ([] : List ℚ)).length :=
      foldl_frame_pred_count obs statF 1 u (pairSeq vo sd) (frameInit obs statF)
    rw [h, List.length_replicate]
  · intro hdir
    rw [houtcome, List.length_map, dyadOcc_length, hdir, if_neg (by simp)]
    exact pairSeq_length vo sd

theorem claim_C3_witness :
    (∀ t, uZero t < 1) ∧
    ((modelFrameGivenOrder obs4 statEdgeCount 1 uZero sdZero [0, 1, 2, 3]).outcome =
      (dyadOcc obs4.directed (pairSeq [0, 1, 2, 3] sdZero)).map
        (fun p => obs4.hasEdge p.1 p.2) ∧
    (∀ col ∈ (modelFrameGivenOrder obs4 statEdgeCount 1 uZero sdZero
        [0, 1, 2, 3]).predictors,
      col.length = (dyadOcc obs4.directed (pairSeq [0, 1, 2, 3] sdZero)).length) ∧
    (modelFrameGivenOrder obs4 statEdgeCount 1 uZero sdZero [0, 1, 2, 3]).predictors.length
      = (statEdgeCount obs4.emptyGraph).length ∧
    (obs4.directed = false →
      2 * (modelFrameGivenOrder obs4 statEdgeCount 1 uZero sdZero
        [0, 1, 2, 3]).outcome.length = ([0, 1, 2, 3] : List ℕ).length *
          (([0, 1, 2, 3] : List ℕ).length - 1))) ∧
    (modelFrameGivenOrder obs4 statEdgeCount 1 uZero sdZero [0, 1, 2, 3]).outcome.length
      = 6 ∧
    (modelFrameGivenOrder obs4 statEdgeCount 1 uZero sdZero
      [0, 1, 2, 3]).outcome.count true = 2 ∧
    (modelFrameGivenOrder obs4 statEdgeCount 1 uZero sdZero
      [0, 1, 2, 3]).outcome.count false = 4 :=
  ⟨fun t => by norm_num [uZero],
    claim_C3 obs4 statEdgeCount uZero sdZero [0, 1, 2, 3] (fun t => by norm_num [uZero]),
    by decide, by decide, by decide⟩

/-! ### The replay sampler at downsample rate 0 (claim C4) -/

theorem replayDyad_false_net (obs : Network) (statF : Network → List ℚ) (v a : ℕ)
    (st : FrameState) :
    (replayDyad obs statF false v a st).model.net =
      (if obs.hasEdge v a = true then st.model.net.toggle v a else st.model.net) := by
  unfold replayDyad
  simp only [Bool.false_eq_true, if_false]
  split <;> rfl

theorem replayDyad_false_pending (obs : Network) (statF : Network → List ℚ) (v a : ℕ)
    (st : FrameState) (h : st.model.pending = none) :
    (replayDyad obs statF false v a st).model.pending = none := by
  unfold replayDyad
  simp only [Bool.false_eq_true, if_false]
  split
  · rfl
  · exact h

theorem replayDyad_false_outcome (obs : Network) (statF : Network → List ℚ) (v a : ℕ)
    (st : FrameState) :
    (replayDyad obs statF false v a st).outcome = st.outcome := by
  unfold replayDyad
  simp only [Bool.false_eq_true, if_false]
  split <;> rfl

theorem replayDyad_false_predictors (obs : Network) (statF : Network → List ℚ) (v a : ℕ)
    (st : FrameState) :
    (replayDyad obs statF false v a st).predictors = st.predictors := by
  unfold replayDyad
  simp only [Bool.false_eq_true, if_false]
  split <;> rfl

/-- Behaviour of a non-retained dyad pair at rate 0: the network absorbs the
observed tie (in both directions when directed), nothing is recorded, and
any dyad other than the processed pair and its reverse is untouched. -/
theorem framePairStep_rate0 (obs : Network) (statF : Network → List ℚ) (u : ℕ → ℚ)
    (st : FrameState) (p : ℕ × ℕ) (hu : 0 ≤ u st.t) (hpend : st.model.pending = none)
    (hdir : st.model.net.directed = obs.directed) (hne : p.1 ≠ p.2)
    (hno1 : st.model.net.hasEdge p.1 p.2 = false)
    (hno2 : st.model.net.hasEdge p.2 p.1 = false) :
    (framePairStep obs statF 0 u st p).model.pending = none ∧
    (framePairStep obs statF 0 u st p).model.net.directed = obs.directed ∧
    (framePairStep obs statF 0 u st p).outcome = st.outcome ∧
    (framePairStep obs statF 0 u st p).predictors = st.predictors ∧
    ∀ x y, (framePairStep obs statF 0 u st p).model.net.hasEdge x y =
      (if (x, y) = p ∨ (x, y) = (p.2, p.1) then obs.hasEdge x y
       else st.model.net.hasEdge x y) := by
  have hsample : decide (u st.t < (0 : ℚ)) = false := decide_eq_false (not_lt.mpr hu)
  have hstep : framePairStep obs statF 0 u st p =
      (if obs.directed = true
       then replayDyad obs statF false p.2 p.1
         (replayDyad obs statF false p.1 p.2 { st with t := st.t + 1 })
       else replayDyad obs statF false p.1 p.2 { st with t := st.t + 1 }) := by
    unfold framePairStep
    rw [hsample]
  set st0 : FrameState := { st with t := st.t + 1 } with hst0
  have hst0m : st0.model = st.model := rfl
  -- facts about the first replayed direction
  have hnet1 : (replayDyad obs statF false p.1 p.2 st0).model.net =
      (if obs.hasEdge p.1 p.2 = true then st.model.net.toggle p.1 p.2
       else st.model.net) := replayDyad_false_net obs statF p.1 p.2 st0
  have hpend1 : (replayDyad obs statF false p.1 p.2 st0).model.pending = none :=
    replayDyad_false_pending obs statF p.1 p.2 st0 hpend
  have hdir1 : (replayDyad obs statF false p.1 p.2 st0).model.net.directed
      = obs.directed := by
    rw [hnet1]
    split
    · rw [toggle_directed]
      exact hdir
    · exact hdir
  have hq1 : ∀ x y, (x, y) ≠ p → (x, y) ≠ (p.2, p.1) →
      (replayDyad obs statF false p.1 p.2 st0).model.net.hasEdge x y
        = st.model.net.hasEdge x y := by
    intro x y hxy1 hxy2
    rw [hnet1]
    split
    · exact hasEdge_toggle_ne st.model.net p.1 p.2 x y (by simpa using hxy1)
        (fun _ => by simpa using hxy2)
    · rfl
  have hfwd1 : (replayDyad obs statF false p.1 p.2 st0).model.net.hasEdge p.1 p.2
      = obs.hasEdge p.1 p.2 := by
    rw [hnet1]
    cases hobs : obs.hasEdge p.1 p.2 with
    | true => simpa using hasEdge_toggle_self st.model.net p.1 p.2 hno1
    | false => simpa using hno1
  have hrev1 : (replayDyad obs statF false p.1 p.2 st0).model.net.hasEdge p.2 p.1
      = (if obs.hasEdge p.1 p.2 = true
         then (st.model.net.toggle p.1 p.2).hasEdge p.2 p.1
         else st.model.net.hasEdge p.2 p.1) := by
    rw [hnet1]
    split <;> rfl
  by_cases hodir : obs.directed = true
  · -- directed network: the reverse dyad is replayed as well
    have hrev1' : (replayDyad obs statF false p.1 p.2 st0).model.net.hasEdge p.2 p.1
        = false := by
      rw [hrev1]
      split
      · rw [hasEdge_toggle_ne st.model.net p.1 p.2 p.2 p.1
          (by simp [Prod.ext_iff]; omega) (fun hcon => by rw [hdir, hodir] at hcon; cases hcon)]
        exact hno2
      · exact hno2
    set st1 := replayDyad obs statF false p.1 p.2 st0 with hst1
    have hnet2 : (replayDyad obs statF false p.2 p.1 st1).model.net =
        (if obs.hasEdge p.2 p.1 = true then st1.model.net.toggle p.2 p.1
         else st1.model.net) := replayDyad_false_net obs statF p.2 p.1 st1
    rw [hstep, if_pos hodir]
    refine ⟨replayDyad_false_pending obs statF p.2 p.1 st1 hpend1, ?_, ?_, ?_, ?_⟩
    · rw [hnet2]
      split
      · rw [toggle_directed]
        exact hdir1
      · exact hdir1
    · rw [replayDyad_false_outcome, replayDyad_false_outcome]
    · rw [replayDyad_false_predictors, replayDyad_false_predictors]
    · intro x y
      have hdirne : st1.model.net.directed = false → False := by
        intro hcon
        rw [hdir1, hodir] at hcon
        cases hcon
      by_cases hxy1 : (x, y) = p
      · rw [if_pos (Or.inl hxy1)]
        obtain ⟨hx, hy⟩ : x = p.1 ∧ y = p.2 := by
          simpa [Prod.ext_iff] using hxy1
        subst hx; subst hy
        rw [hnet2]
        split
        · rw [hasEdge_toggle_ne st1.model.net p.2 p.1 p.1 p.2
            (by simp [Prod.ext_iff]; omega) (fun hcon => absurd hcon hdirne)]
          exact hfwd1
        · exact hfwd1
      · by_cases hxy2 : (x, y) = (p.2, p.1)
        · rw [if_pos (Or.inr hxy2)]
          obtain ⟨hx, hy⟩ : x = p.2 ∧ y = p.1 := by
            simpa [Prod.ext_iff] using hxy2
          subst hx; subst hy
          rw [hnet2]
          cases hobs : obs.hasEdge p.2 p.1 with
          | true =>
            simpa using hasEdge_toggle_self st1.model.net p.2 p.1 hrev1'
          | false =>
            simpa using hrev1'
        · rw [if_neg (by tauto)]
          rw [hnet2]
          have hpres : st1.model.net.hasEdge x y = st.model.net.hasEdge x y :=
            hq1 x y hxy1 hxy2
          split
          · rw [hasEdge_toggle_ne st1.model.net p.2 p.1 x y (by simpa using hxy2)
              (fun hcon => absurd hcon hdirne)]
            exact hpres
          · exact hpres
  · -- undirected network: one replay, symmetric queries
    have hodir' : obs.directed = false := by
      cases hval : obs.directed with
      | true => exact absurd hval hodir
      | false => rfl
    rw [hstep, if_neg hodir]
    refine ⟨hpend1, hdir1, replayDyad_false_outcome obs statF p.1 p.2 st0,
      replayDyad_false_predictors obs statF p.1 p.2 st0, ?_⟩
    intro x y
    have hdir1' : (replayDyad obs statF false p.1 p.2 st0).model.net.directed = false := by
      rw [hdir1]; exact hodir'
    by_cases hxy1 : (x, y) = p
    · rw [if_pos (Or.inl hxy1)]
      obtain ⟨hx, hy⟩ : x = p.1 ∧ y = p.2 := by
        simpa [Prod.ext_iff] using hxy1
      subst hx; subst hy
      exact hfwd1
    · by_cases hxy2 : (x, y) = (p.2, p.1)
      · rw [if_pos (Or.inr hxy2)]
        obtain ⟨hx, hy⟩ : x = p.2 ∧ y = p.1 := by
          simpa [Prod.ext_iff] using hxy2
        subst hx; subst hy
        rw [hasEdge_symm _ hdir1' p.2 p.1, hfwd1, hasEdge_symm obs hodir' p.2 p.1]
      · rw [if_neg (by tauto)]
        exact hq1 x y hxy1 hxy2

/-- Two dyad pairs are distinct as unordered dyads: neither equal nor
reverses of each other. -/
def pairDistinct (p q : ℕ × ℕ) : Prop := ¬(p = q ∨ p = (q.2, q.1))

/-- Replaying a sequence of pairwise-distinct dyad pairs at rate 0 records
nothing and leaves the running network's visited dyads edge-for-edge equal to
the observed network, without touching unvisited dyads. -/
theorem foldl_frame_rate0 (obs : Network) (statF : Network → List ℚ) (u : ℕ → ℚ)
    (hu : ∀ t, 0 ≤ u t) :
    ∀ (ps : List (ℕ × ℕ)) (st : FrameState),
      st.model.pending = none →
      st.model.net.directed = obs.directed →
      ps.Pairwise pairDistinct →
      (∀ p ∈ ps, p.1 ≠ p.2) →
      (∀ p ∈ ps, st.model.net.hasEdge p.1 p.2 = false ∧
        st.model.net.hasEdge p.2 p.1 = false) →
      (ps.foldl (framePairStep obs statF 0 u) st).outcome = st.outcome ∧
      (ps.foldl (framePairStep obs statF 0 u) st).predictors = st.predictors ∧
      (∀ p ∈ ps,
        (ps.foldl (framePairStep obs statF 0 u) st).model.net.hasEdge p.1 p.2
          = obs.hasEdge p.1 p.2 ∧
        (ps.foldl (framePairStep obs statF 0 u) st).model.net.hasEdge p.2 p.1
          = obs.hasEdge p.2 p.1) ∧
      (∀ x y, (¬ ∃ p ∈ ps, (x, y) = p ∨ (x, y) = (p.2, p.1)) →
        (ps.foldl (framePairStep obs statF 0 u) st).model.net.hasEdge x y
          = st.model.net.hasEdge x y)
  | [], st, _, _, _, _, _ => by
    refine ⟨rfl, rfl, ?_, ?_⟩
    · intro p hp
      exact absurd hp (List.not_mem_nil p)
    · intro x y _
      rfl
  | p :: ps, st, hpend, hdir, hpw, hirr, hnoedge => by
    have hpwp := (List.pairwise_cons.mp hpw).1
    have hpwps := (List.pairwise_cons.mp hpw).2
    have hnep : p.1 ≠ p.2 := hirr p (List.mem_cons_self p ps)
    obtain ⟨hno1, hno2⟩ := hnoedge p (List.mem_cons_self p ps)
    obtain ⟨hpend1, hdir1, hout1, hpred1, hnet1⟩ :=
      framePairStep_rate0 obs statF u st p (hu st.t) hpend hdir hnep hno1 hno2
    set st1 := framePairStep obs statF 0 u st p with hst1
    -- non-coverage facts between p and the tail pairs
    have hqcover : ∀ q ∈ ps, ¬((q.1, q.2) = p ∨ (q.1, q.2) = (p.2, p.1)) ∧
        ¬((q.2, q.1) = p ∨ (q.2, q.1) = (p.2, p.1)) := by
      intro q hq
      have hdq := hpwp q hq
      unfold pairDistinct at hdq
      push_neg at hdq
      obtain ⟨hd1, hd2⟩ := hdq
      constructor
      · rintro (hc | hc)
        · exact hd1 hc.symm
        · apply hd2
          obtain ⟨h3, h4⟩ : q.1 = p.2 ∧ q.2 = p.1 := by simpa [Prod.ext_iff] using hc
          simp [Prod.ext_iff, h3, h4]
      · rintro (hc | hc)
        · apply hd2
          obtain ⟨h3, h4⟩ : q.2 = p.1 ∧ q.1 = p.2 := by simpa [Prod.ext_iff] using hc
          simp [Prod.ext_iff, h3, h4]
        · apply hd1
          obtain ⟨h3, h4⟩ : q.2 = p.2 ∧ q.1 = p.1 := by simpa [Prod.ext_iff] using hc
          simp [Prod.ext_iff, h3, h4]
    have hnoedge1 : ∀ q ∈ ps, st1.model.net.hasEdge q.1 q.2 = false ∧
        st1.model.net.hasEdge q.2 q.1 = false := by
      intro q hq
      obtain ⟨hc1, hc2⟩ := hqcover q hq
      obtain ⟨hq1, hq2⟩ := hnoedge q (List.mem_cons_of_mem p hq)
      constructor
      · rw [hnet1 q.1 q.2, if_neg hc1]
        exact hq1
      · rw [hnet1 q.2 q.1, if_neg hc2]
        exact hq2
    obtain ⟨ihout, ihpred, ihvisited, ihpres⟩ :=
      foldl_frame_rate0 obs statF u hu ps st1 hpend1 hdir1 hpwps
        (fun q hq => hirr q (List.mem_cons_of_mem p hq)) hnoedge1
    rw [List.foldl_cons]
    refine ⟨by rw [ihout, hout1], by rw [ihpred, hpred1], ?_, ?_⟩
    · intro q hq
      rcases List.mem_cons.mp hq with rfl | hq'
      · -- the head pair: the tail never covers it again
        have hnocov1 : ¬ ∃ q' ∈ ps, (q.1, q.2) = q' ∨ (q.1, q.2) = (q'.2, q'.1) := by
          rintro ⟨q', hq', hc⟩
          have hdq := hpwp q' hq'
          unfold pairDistinct at hdq
          push_neg at hdq
          rcases hc with hc | hc
          · exact hdq.1 (by simpa [Prod.ext_iff] using hc)
          · exact hdq.2 (by
              obtain ⟨h3, h4⟩ : q.1 = q'.2 ∧ q.2 = q'.1 := by
                simpa [Prod.ext_iff] using hc
              simp [Prod.ext_iff, h3, h4])
        have hnocov2 : ¬ ∃ q' ∈ ps, (q.2, q.1) = q' ∨ (q.2, q.1) = (q'.2, q'.1) := by
          rintro ⟨q', hq', hc⟩
          have hdq := hpwp q' hq'
          unfold pairDistinct at hdq
          push_neg at hdq
          rcases hc with hc | hc
          · exact hdq.2 (by
              obtain ⟨h3, h4⟩ : q.2 = q'.1 ∧ q.1 = q'.2 := by
                simpa [Prod.ext_iff] using hc
              simp [Prod.ext_iff, h3, h4])
          · exact hdq.1 (by
              obtain ⟨h3, h4⟩ : q.2 = q'.2 ∧ q.1 = q'.1 := by
                simpa [Prod.ext_iff] using hc
              simp [Prod.ext_iff, h3, h4])
        constructor
        · rw [ihpres q.1 q.2 hnocov1, hnet1 q.1 q.2, if_pos (Or.inl rfl)]
        · rw [ihpres q.2 q.1 hnocov2, hnet1 q.2 q.1, if_pos (Or.inr rfl)]
      · exact ihvisited q hq'
    · intro x y hncov
      have hncovtail : ¬ ∃ q ∈ ps, (x, y) = q ∨ (x, y) = (q.2, q.1) := by
        rintro ⟨q, hq, hc⟩
        exact hncov ⟨q, List.mem_cons_of_mem p hq, hc⟩
      have hncovp : ¬((x, y) = p ∨ (x, y) = (p.2, p.1)) := by
        rintro hc
        exact hncov ⟨p, List.mem_cons_self p ps, hc⟩
      rw [ihpres x y hncovtail, hnet1 x y, if_neg hncovp]

/-! ### Structure of the vertex-sequential dyad enumeration -/

theorem getD_eq_of_drop_eq (w vo : List ℕ) (i m : ℕ) (him : i ≤ m)
    (h : w.drop i = vo.drop i) : w.getD m 0 = vo.getD m 0 := by
  obtain ⟨t, rfl⟩ : ∃ t, m = i + t := ⟨m - i, by omega⟩
  have hq := congrArg (fun l => l[t]?) h
  simp only [List.getElem?_drop] at hq
  simp only [List.getD_eq_getElem?_getD, hq]

theorem mem_take_getD (l : List ℕ) (j i : ℕ) (hj : j < i) (hi : i ≤ l.length) :
    l.getD j 0 ∈ l.take i := by
  have hjl : j < l.length := lt_of_lt_of_le hj hi
  rw [List.getD_eq_getElem _ _ hjl, List.mem_take_iff_getElem]
  exact ⟨j, lt_min hj hjl, rfl⟩

theorem getD_not_mem_take (vo : List ℕ) (hnd : vo.Nodup) (i k : ℕ) (hik : i ≤ k)
    (hk : k < vo.length) : vo.getD k 0 ∉ vo.take i := by
  intro hmem
  rw [List.getD_eq_getElem _ _ hk, List.mem_take_iff_getElem] at hmem
  obtain ⟨j, hj, hEq⟩ := hmem
  have hji : j < i := lt_of_lt_of_le hj (min_le_left _ _)
  have := hnd.getElem_inj_iff.mp hEq
  omega

theorem getD_inj (vo : List ℕ) (hnd : vo.Nodup) (i j : ℕ) (hi : i < vo.length)
    (hj : j < vo.length) (hEq : vo.getD i 0 = vo.getD j 0) : i = j := by
  rw [List.getD_eq_getElem _ _ hi, List.getD_eq_getElem _ _ hj] at hEq
  exact hnd.getElem_inj_iff.mp hEq

/-- Every pair `(vertex, alter)` that `pairSeqFrom` enumerates from outer
step `i` has `vertex = vert_order[k]` for some `k ≥ i`, with `alter` among
the earlier entries `vert_order[0..k)`, and all enumerated pairs are
distinct as unordered dyads. -/
theorem pairSeqFrom_spec (vo : List ℕ) (hnd : vo.Nodup) (sd : ℕ → ℕ → ℕ)
    (hsd : ∀ i k, k + 1 < i → sd i k < i) :
    ∀ (steps : ℕ) (w : List ℕ) (i : ℕ),
      i + steps = vo.length → w.length = vo.length →
      w.drop i = vo.drop i → (w.take i).Perm (vo.take i) →
      (∀ p ∈ pairSeqFrom sd w i steps,
        ∃ k, i ≤ k ∧ k < vo.length ∧ p.1 = vo.getD k 0 ∧ p.2 ∈ vo.take k) ∧
      (pairSeqFrom sd w i steps).Pairwise pairDistinct
  | 0, w, i, _, _, _, _ => ⟨fun p hp => absurd hp (List.not_mem_nil p), List.Pairwise.nil⟩
  | steps + 1, w, i, hsum, hlen, hdrop, htake => by
    have hi : i < vo.length := by omega
    have hwi : i ≤ w.length := by rw [hlen]; omega
    set w' := shuffle w i (sd i) with hw'
    have hd' : ∀ k, k + 1 < i → sd i k < i := hsd i
    have hlen' : w'.length = vo.length := by rw [hw', shuffle_length, hlen]
    have hwi' : i ≤ w'.length := by rw [hlen']; omega
    have hdropw' : w'.drop i = w.drop i := shuffle_drop w i (sd i) hd'
    have hdrop' : w'.drop i = vo.drop i := by rw [hdropw', hdrop]
    have htakew' : (w'.take i).Perm (w.take i) := shuffle_take_perm w i (sd i) hd' hwi
    have htake' : (w'.take i).Perm (vo.take i) := htakew'.trans htake
    have hvertex : w.getD i 0 = vo.getD i 0 := getD_eq_of_drop_eq w vo i i le_rfl hdrop
    have hunfold : pairSeqFrom sd w i (steps + 1) =
        (List.range i).map (fun j => (w.getD i 0, w'.getD j 0)) ++
          pairSeqFrom sd w' (i + 1) steps := rfl
    have hdropSucc : w'.drop (i + 1) = vo.drop (i + 1) := by
      have h1 : List.drop 1 (w'.drop i) = List.drop 1 (vo.drop i) := by rw [hdrop']
      rw [List.drop_drop, List.drop_drop] at h1
      exact h1
    have hw'i : w'[i]? = vo[i]? := by
      have hq := congrArg (fun l => l[0]?) hdrop'
      simpa [List.getElem?_drop] using hq
    have htakeSucc : (w'.take (i + 1)).Perm (vo.take (i + 1)) := by
      rw [List.take_succ, List.take_succ, hw'i]
      exact htake'.append_right _
    obtain ⟨ihchar, ihpw⟩ := pairSeqFrom_spec vo hnd sd hsd steps w' (i + 1)
      (by omega) hlen' hdropSucc htakeSucc
    have hblockmem : ∀ p ∈ (List.range i).map (fun j => (w.getD i 0, w'.getD j 0)),
        p.1 = vo.getD i 0 ∧ p.2 ∈ vo.take i := by
      intro p hp
      obtain ⟨j, hj, rfl⟩ := List.mem_map.mp hp
      rw [List.mem_range] at hj
      exact ⟨hvertex, htake'.mem_iff.mp (mem_take_getD w' j i hj hwi')⟩
    have hndtake : (vo.take i).Nodup := (List.take_sublist i vo).nodup hnd
    have hndtakew' : (w'.take i).Nodup := htake'.symm.nodup hndtake
    rw [hunfold]
    constructor
    · intro p hp
      rcases List.mem_append.mp hp with hp | hp
      · obtain ⟨h1, h2⟩ := hblockmem p hp
        exact ⟨i, le_rfl, hi, h1, h2⟩
      · obtain ⟨k, hk1, hk2, hk3, hk4⟩ := ihchar p hp
        exact ⟨k, by omega, hk2, hk3, hk4⟩
    · rw [List.pairwise_append]
      refine ⟨?_, ihpw, ?_⟩
      · rw [List.pairwise_iff_getElem]
        intro a b ha hb hab
        have hai : a < i := by simpa using ha
        have hbi : b < i := by simpa using hb
        have hga : ((List.range i).map (fun j => (w.getD i 0, w'.getD j 0)))[a]
            = (w.getD i 0, w'.getD a 0) := by
          simp
        have hgb : ((List.range i).map (fun j => (w.getD i 0, w'.getD j 0)))[b]
            = (w.getD i 0, w'.getD b 0) := by
          simp
        rw [hga, hgb]
        unfold pairDistinct
        have haw : a < w'.length := by omega
        have hbw : b < w'.length := by omega
        have hat : a < (w'.take i).length := by
          rw [List.length_take]
          omega
        have hbt : b < (w'.take i).length := by
          rw [List.length_take]
          omega
        rintro (hc | hc)
        · have h2 : w'.getD a 0 = w'.getD b 0 := by
            simpa [Prod.ext_iff] using hc
          rw [List.getD_eq_getElem _ _ haw, List.getD_eq_getElem _ _ hbw] at h2
          have h3 : (w'.take i)[a] = (w'.take i)[b] := by
            rw [List.getElem_take, List.getElem_take]
            exact h2
          have := hndtakew'.getElem_inj_iff.mp h3
          omega
        · obtain ⟨h4, -⟩ : w.getD i 0 = w'.getD b 0 ∧ w'.getD a 0 = w.getD i 0 := by
            simpa [Prod.ext_iff] using hc
          have h5 : w'.getD b 0 ∈ vo.take i :=
            htake'.mem_iff.mp (mem_take_getD w' b i hbi hwi')
          rw [← h4, hvertex] at h5
          exact getD_not_mem_take vo hnd i i le_rfl hi h5
      · intro p hp q hq
        obtain ⟨hp1, hp2⟩ := hblockmem p hp
        obtain ⟨k', hk1, hk2, hq1, hq2⟩ := ihchar q hq
        unfold pairDistinct
        rintro (rfl | hc)
        · have := getD_inj vo hnd i k' hi hk2 (by rw [← hp1, hq1])
          omega
        · obtain ⟨-, h6⟩ : p.1 = q.2 ∧ p.2 = q.1 := by
            simpa [Prod.ext_iff] using hc
          apply getD_not_mem_take vo hnd i k' (by omega) hk2
          rw [← hq1, ← h6]
          exact hp2

/-- The full vertex-sequential enumeration of a duplicate-free order consists
of pairwise-distinct unordered dyads with distinct endpoints. -/
theorem pairSeq_spec (vo : List ℕ) (hnd : vo.Nodup) (sd : ℕ → ℕ → ℕ)
    (hsd : ∀ i k, k + 1 < i → sd i k < i) :
    (pairSeq vo sd).Pairwise pairDistinct ∧ ∀ p ∈ pairSeq vo sd, p.1 ≠ p.2 := by
  obtain ⟨hchar, hpw⟩ := pairSeqFrom_spec vo hnd sd hsd vo.length vo 0
    (by omega) rfl rfl (by simp)
  refine ⟨hpw, ?_⟩
  intro p hp hEq
  obtain ⟨k, -, hk2, hk3, hk4⟩ := hchar p hp
  apply getD_not_mem_take vo hnd k k le_rfl hk2
  rw [← hk3, hEq]
  exact hk4

/-- Claim C4: at `downsampleRate = 0.0` (every `Rf_runif(0,1)` draw is at
least 0) `modelFrameGivenOrder` records zero outcome rows and zero feature
scalars, yet after the full traversal the running network has an edge at a
visited dyad if and only if the observed network has an edge there. -/
theorem claim_C4 (obs : Network) (statF : Network → List ℚ) (u : ℕ → ℚ)
    (sd : ℕ → ℕ → ℕ) (vo : List ℕ) (hu : ∀ t, 0 ≤ u t) (hnd : vo.Nodup)
    (hsd : ∀ i k, k + 1 < i → sd i k < i) :
    (modelFrameGivenOrder obs statF 0 u sd vo).outcome = [] ∧
    (∀ col ∈ (modelFrameGivenOrder obs statF 0 u sd vo).predictors, col = []) ∧
    ∀ p ∈ dyadOcc obs.directed (pairSeq vo sd),
      (modelFrameGivenOrder obs statF 0 u sd vo).model.net.hasEdge p.1 p.2
        = obs.hasEdge p.1 p.2 := by
  obtain ⟨hpw, hirr⟩ := pairSeq_spec vo hnd sd hsd
  obtain ⟨hout, hpred, hvisited, -⟩ := foldl_frame_rate0 obs statF u hu (pairSeq vo sd)
    (frameInit obs statF) rfl rfl hpw hirr
    (fun p _ => ⟨hasEdge_emptyGraph obs p.1 p.2, hasEdge_emptyGraph obs p.2 p.1⟩)
  refine ⟨hout, ?_, ?_⟩
  · intro col hcol
    have hpred' : (modelFrameGivenOrder obs statF 0 u sd vo).predictors
        = (frameInit obs statF).predictors := hpred
    rw [hpred'] at hcol
    exact List.eq_of_mem_replicate hcol
  · intro p hp
    unfold dyadOcc at hp
    by_cases hdir : obs.directed = true
    · rw [if_pos hdir] at hp
      rw [List.mem_flatMap] at hp
      obtain ⟨q, hq, hpq⟩ := hp
      have hvq := hvisited q hq
      rcases List.mem_cons.mp hpq with rfl | hpq'
      · exact hvq.1
      · rcases List.mem_cons.mp hpq' with rfl | hnil
        · exact hvq.2
        · exact absurd hnil (List.not_mem_nil _)
    · rw [if_neg hdir] at hp
      exact (hvisited p hp).1

theorem claim_C4_witness :
    (∀ t, 0 ≤ uZero t) ∧ ([0, 1, 2, 3] : List ℕ).Nodup ∧
    (∀ i k, k + 1 < i → sdZero i k < i) ∧
    ((modelFrameGivenOrder obs4 statEdgeCount 0 uZero sdZero [0, 1, 2, 3]).outcome = [] ∧
    (∀ col ∈ (modelFrameGivenOrder obs4 statEdgeCount 0 uZero sdZero
        [0, 1, 2, 3]).predictors, col = []) ∧
    ∀ p ∈ dyadOcc obs4.directed (pairSeq [0, 1, 2, 3] sdZero),
      (modelFrameGivenOrder obs4 statEdgeCount 0 uZero sdZero
        [0, 1, 2, 3]).model.net.hasEdge p.1 p.2 = obs4.hasEdge p.1 p.2) :=
  ⟨fun t => by norm_num [uZero], by decide, fun i k h => by simp only [sdZero]; omega,
    claim_C4 obs4 statEdgeCount uZero sdZero [0, 1, 2, 3] (fun t => by norm_num [uZero])
      (by decide) (fun i k h => by simp only [sdZero]; omega)⟩

/-- The formalized claim C8 reading: every edge-order entry point — in
particular `modelFrameGivenEdgeOrder` — logs a warning when the supplied
edge order references a vertex index outside `[0, n)`. -/
def edgeOrderWarningClaim : Prop :=
  ∀ (obs : Network) (statF : Network → List ℚ) (rate : ℚ) (u : ℕ → ℚ)
    (perm_heads perm_tails : List ℕ),
    (∃ x ∈ perm_tails, obs.n ≤ x) →
    (modelFrameGivenEdgeOrder obs statF rate u perm_heads perm_tails).1 = true

/-- Claim C8 counterexample: `modelFrameGivenEdgeOrder` contains no range
check at all, so with the out-of-range tail `5` on a 3-vertex network it
prints no warning. -/
theorem claim_C8_counterexample : ¬ edgeOrderWarningClaim := by
  intro h
  have h5 : ∃ x ∈ [5], netTri.n ≤ x := ⟨5, by decide, by decide⟩
  have := h netTri statEdgeCount 0 uZero [0] [5] h5
  simp [modelFrameGivenEdgeOrder] at this

/-- Claim C8 (amended): when the supplied edge order references a vertex
index outside `[0, n)`, `generateNetworkWithEdgeOrder` and `calcChangeStats`
log a warning and continue the computation to completion (`calcChangeStats`
still emits one change-statistic vector per dyad slot), while
`modelFrameGivenEdgeOrder` performs no range check at all: it prints no
warning and also continues; none of the three aborts. -/
theorem claim_C8 (obs : Network) (statF : Network → List ℚ) (llF : Network → ℚ)
    (expQ : ℚ → ℚ) (u : ℕ → ℚ) (rate : ℚ) (nStats : ℕ) (vo : List ℕ)
    (perm_heads perm_tails : List ℕ) (hn : 1 ≤ obs.n)
    (htail : ∃ x ∈ perm_tails, obs.n ≤ x) :
    (generateNetworkWithEdgeOrder obs statF llF expQ u nStats vo
      perm_heads perm_tails).1 = true ∧
    (calcChangeStats obs statF vo perm_heads perm_tails).1 = true ∧
    (calcChangeStats obs statF vo perm_heads perm_tails).2.changeStats.length =
      (if obs.directed then obs.n * (obs.n - 1) else obs.n * (obs.n - 1) / 2) ∧
    (modelFrameGivenEdgeOrder obs statF rate u perm_heads perm_tails).1 = false := by
  have hwarn : permRangeWarn obs.n perm_heads perm_tails = true := by
    obtain ⟨x, hx, hnx⟩ := htail
    have hlt : obs.n - 1 < maxElt perm_tails :=
      lt_of_lt_of_le (by omega) (le_trans hnx (le_maxElt _ x hx))
    unfold permRangeWarn
    rw [decide_eq_true hlt]
    rfl
  refine ⟨hwarn, hwarn, ?_, rfl⟩
  have hlen : (calcChangeStats obs statF vo perm_heads perm_tails).2.changeStats.length
      = ([] : List (List ℚ)).length + (List.range
        (if obs.directed then obs.n * (obs.n - 1) else obs.n * (obs.n - 1) / 2)).length :=
    foldl_calcStep_length obs statF vo perm_tails perm_heads _ _
  rw [hlen]
  simp

theorem claim_C8_witness :
    1 ≤ netTri.n ∧ (∃ x ∈ [5, 0, 0], netTri.n ≤ x) ∧
    ((generateNetworkWithEdgeOrder netTri statEdgeCount llEdgeCount expOne uHalf 1
        [2, 0, 1] [0, 1, 2] [5, 0, 0]).1 = true ∧
      (calcChangeStats netTri statEdgeCount [2, 0, 1] [0, 1, 2] [5, 0, 0]).1 = true ∧
      (calcChangeStats netTri statEdgeCount [2, 0, 1]
          [0, 1, 2] [5, 0, 0]).2.changeStats.length =
        (if netTri.directed then netTri.n * (netTri.n - 1)
         else netTri.n * (netTri.n - 1) / 2) ∧
      (modelFrameGivenEdgeOrder netTri statEdgeCount 1 uHalf [0, 1, 2] [5, 0, 0]).1 = false) :=
  ⟨by decide, ⟨5, by decide, by decide⟩,
    claim_C8 netTri statEdgeCount llEdgeCount expOne uHalf 1 1 [2, 0, 1] [0, 1, 2] [5, 0, 0]
      (by decide) ⟨5, by decide, by decide⟩⟩

end Lolog
